import Mathlib

/- Verification development for pb2obsidian.py: the image-extraction and
reference-rewriting pipeline (`process_images`), slugification (`slugify`)
and image discovery.  Strings are modelled as `List Char`; the filesystem
subtree enumerated by `staging_dir.rglob("*")` is modelled as a list of
`FSEntry` records (full path string plus is-file flag).  Python regular
expression character classes are modelled on the ASCII range relevant to
this tool. -/

namespace PB2Obsidian

/-- Model of Python regex `\s` and `str.strip()` whitespace (ASCII range). -/
def isSpaceChar (c : Char) : Bool :=
  c = ' ' || c = '\t' || c = '\n' || c = '\r' || c = '\x0b' || c = '\x0c'

/-- Model of Python regex `\w` (word character), ASCII range:
letters, digits and underscore. -/
def isWordChar (c : Char) : Bool :=
  c.isAlphanum || c = '_'

/-- The characters kept by `re.sub(r"[^\w\s-]", "", slug)`. -/
def keepChar (c : Char) : Bool :=
  isWordChar c || isSpaceChar c || c = '-'

/-- Drop the characters satisfying `p` from both ends of the string
(model of `str.strip` / `str.strip("_")`). -/
def stripWhile (p : Char → Bool) (s : List Char) : List Char :=
  ((s.dropWhile p).reverse.dropWhile p).reverse

/-- Replace every maximal nonempty run of characters satisfying `p` by the
single character `r`: model of `re.sub(klass+, r, s)` for a one-character
replacement, as used for `re.sub(r"[\s]+", "_", slug)` and
`re.sub(r"_+", "_", slug)`. -/
def collapseRuns (p : Char → Bool) (r : Char) : List Char → List Char
  | [] => []
  | [c] => if p c then [r] else [c]
  | c1 :: c2 :: rest =>
    if p c1 then
      if p c2 then collapseRuns p r (c2 :: rest)
      else r :: c2 :: collapseRuns p r rest
    else c1 :: collapseRuns p r (c2 :: rest)

/-- `slugify` from pb2obsidian.py:
`slug = title.lower().strip()`;
`slug = re.sub(r"[^\w\s-]", "", slug)`;
`slug = re.sub(r"[\s]+", "_", slug)`;
`slug = re.sub(r"_+", "_", slug)`;
`return slug.strip("_")`. -/
def slugify (title : List Char) : List Char :=
  let s1 := stripWhile isSpaceChar (title.map Char.toLower)
  let s2 := s1.filter keepChar
  let s3 := collapseRuns isSpaceChar '_' s2
  let s4 := collapseRuns (fun c => c = '_') '_' s3
  stripWhile (fun c => c = '_') s4

/-- 2-digit zero-padded strftime field (`%m`, `%d`, `%H`, `%M`, `%S`). -/
def pad2 (n : Nat) : List Char :=
  [Nat.digitChar (n / 10 % 10), Nat.digitChar (n % 10)]

/-- 4-digit zero-padded strftime field (`%Y`, for years 1000-9999). -/
def pad4 (n : Nat) : List Char :=
  [Nat.digitChar (n / 1000 % 10), Nat.digitChar (n / 100 % 10),
   Nat.digitChar (n / 10 % 10), Nat.digitChar (n % 10)]

/-- The fallback base name built in `main` when no title is given:
`f"clipboard-" + datetime.now().strftime("%Y%m%d-%H%M%S")`, as a function
of the clock reading. -/
def timestampBaseName (y mo d h mi s : Nat) : List Char :=
  "clipboard-".data ++ pad4 y ++ pad2 mo ++ pad2 d ++ ['-'] ++
    pad2 h ++ pad2 mi ++ pad2 s

/-- The final path component: the text after the last '/'. -/
def basename (p : List Char) : List Char :=
  (p.reverse.takeWhile (fun c => c ≠ '/')).reverse

/-- Index of the last occurrence of `c` in `name`, if any
(Python `name.rfind(c)` restricted to the found case). -/
def rfindChar? (c : Char) (name : List Char) : Option Nat :=
  (name.reverse.findIdx? (fun x => x = c)).map (fun j => name.length - 1 - j)

/-- Model of `pathlib.PurePath.suffix` (Python 3.12) applied to a file name:
`i = name.rfind('.')`; return `name[i:]` if `0 < i < len(name) - 1`,
else the empty string. -/
def pySuffix (name : List Char) : List Char :=
  match rfindChar? '.' name with
  | some i => if 0 < i ∧ i < name.length - 1 then name.drop i else []
  | none => []

/-- `IMAGE_EXTENSIONS` from pb2obsidian.py. -/
def IMAGE_EXTENSIONS : List (List Char) :=
  [".png".data, ".jpg".data, ".jpeg".data, ".gif".data, ".bmp".data,
   ".tiff".data, ".tif".data, ".webp".data, ".svg".data]

/-- One entry of the filesystem subtree under the staging directory, as
enumerated by `staging_dir.rglob("*")`: its full path string and whether it
is a regular file. -/
structure FSEntry where
  path : List Char
  isFile : Bool
deriving DecidableEq, Repr

/-- Lexicographic comparison of two strings by Unicode code point (Python
`str.__le__`).  This is the order over FULL PATH STRINGS — the order claim C1
asserts with "ordered lexicographically by full path".  It is NOT the order
the program's `sorted(...)` applies to `Path` objects: pathlib compares the
tuple of path components (see `partsLe`), and the two orders diverge when one
directory component is a proper prefix of another followed by a character
below '/' (see the claim C1 counterexample).  Kept here only to state that
spec-side order. -/
def lexLe : List Char → List Char → Bool
  | [], _ => true
  | _ :: _, [] => false
  | a :: as, b :: bs =>
    if a.toNat < b.toNat then true
    else if b.toNat < a.toNat then false
    else lexLe as bs

/-- Strict lexicographic comparison of two strings by Unicode code point
(Python `str.__lt__`): the element order used inside pathlib's tuple
comparison. -/
def lexLt : List Char → List Char → Bool
  | [], [] => false
  | [], _ :: _ => true
  | _ :: _, [] => false
  | a :: as, b :: bs =>
    if a.toNat < b.toNat then true
    else if b.toNat < a.toNat then false
    else lexLt as bs

/-- Split a string into its '/'-separated pieces:
`"t/a/b.png" ↦ ["t", "a", "b.png"]`. -/
def splitSlash : List Char → List (List Char)
  | [] => [[]]
  | c :: rest =>
    if c = '/' then [] :: splitSlash rest
    else
      match splitSlash rest with
      | [] => [[c]]
      | comp :: comps => (c :: comp) :: comps

/-- Model of `PurePath.parts` for the normalized POSIX paths pathlib
produces (no empty, "." or trailing components): the root "/" as first part
for an absolute path, then the components, e.g.
`"/t/a/b.png" ↦ ["/", "t", "a", "b.png"]` — matching
`PurePosixPath("/t/a/b.png").parts == ("/", "t", "a", "b.png")`. -/
def pathParts (p : List Char) : List (List Char) :=
  match p with
  | '/' :: rest => "/".data :: splitSlash rest
  | _ => splitSlash p

/-- Lexicographic comparison of two component lists, each component compared
as a string by code point: Python's tuple comparison `t1 <= t2` on tuples of
strings (first unequal component decides by `str.__lt__`; a prefix compares
below). -/
def partsLe : List (List Char) → List (List Char) → Bool
  | [], _ => true
  | _ :: _, [] => false
  | a :: as, b :: bs => if a = b then partsLe as bs else lexLt a b

/-- The sort order of `sorted(...)` in `process_images`.  `sorted` compares
the `Path` objects themselves, and `PurePath.__lt__` compares the tuples of
path components (`self._parts_normcase < other._parts_normcase` in
CPython 3.12, with `normcase` the identity on POSIX) — NOT the full path
strings.  E.g. `Path("/t/a/b.png") < Path("/t/a-x/c.png")` although the full
path strings compare the other way around ('-' sorts below '/'). -/
def entryLe (e1 e2 : FSEntry) : Prop :=
  partsLe (pathParts e1.path) (pathParts e2.path) = true

instance : DecidableRel entryLe :=
  fun _ _ => inferInstanceAs (Decidable (_ = true))

/-- The discovery filter:
`p.is_file() and p.suffix.lower() in IMAGE_EXTENSIONS`. -/
def isImageFile (e : FSEntry) : Bool :=
  e.isFile && decide ((pySuffix (basename e.path)).map Char.toLower ∈ IMAGE_EXTENSIONS)

/-- Model of
`sorted(p for p in staging_dir.rglob("*") if p.is_file() and p.suffix.lower() in IMAGE_EXTENSIONS)`.
Python's `sorted` is a stable sort by pathlib's parts-wise path order
(`entryLe`); `insertionSort` is the stable sort for the same total preorder,
hence the same function. -/
def discoverImages (entries : List FSEntry) : List FSEntry :=
  List.insertionSort entryLe (entries.filter isImageFile)

/-- Zero-padded decimal formatting `f"{n:03d}"`. -/
def pad3 (n : Nat) : List Char :=
  let d := Nat.toDigits 10 n
  List.replicate (3 - d.length) '0' ++ d

/-- `ext = src_path.suffix or ".png"` from `process_images`. -/
def extOf (e : FSEntry) : List Char :=
  if pySuffix (basename e.path) = [] then ".png".data
  else pySuffix (basename e.path)

/-- `new_name = f"{base_name}.image-{image_count:03d}{ext}"`. -/
def newImageName (baseName : List Char) (k : Nat) (ext : List Char) : List Char :=
  baseName ++ ".image-".data ++ pad3 k ++ ext

/-- Split a string at the first occurrence of the character `c`:
`some (before, after)` with `s = before ++ c :: after` and `c ∉ before`;
`none` when `c` does not occur.  This is how a regex engine consumes a
greedy run `[^c]*` that must be followed by the literal `c`. -/
def splitAtChar (c : Char) : List Char → Option (List Char × List Char)
  | [] => none
  | x :: xs =>
    if x = c then some ([], xs)
    else (splitAtChar c xs).map (fun p => (x :: p.1, p.2))

/-- One pass of Python `str.replace(pat, rep)` (all occurrences, scanned left
to right, non-overlapping), written with explicit fuel so that it is
structurally recursive; `pat` is nonempty at every call site in the
program. -/
def replaceAllF (pat rep : List Char) : Nat → List Char → List Char
  | _, [] => []
  | 0, s => s
  | fuel + 1, c :: rest =>
    if pat ≠ [] ∧ pat.isPrefixOf (c :: rest) then
      rep ++ replaceAllF pat rep fuel ((c :: rest).drop pat.length)
    else
      c :: replaceAllF pat rep fuel rest

/-- `markdown.replace(pat, rep)`. -/
def replaceAll (s pat rep : List Char) : List Char :=
  replaceAllF pat rep s.length s

/-- Try to match the regex `!\[[^\]]*\]\(([^)]+)\)` at the start of `s`.
On success, return the captured group (`[^)]+`, the text inside the
parentheses) and the remainder of the string after the match. -/
def tryMdMatch : List Char → Option (List Char × List Char)
  | c1 :: c2 :: rest =>
    if c1 = '!' ∧ c2 = '[' then
      match splitAtChar ']' rest with
      | some (_, rest2) =>
        match rest2 with
        | c3 :: rest3 =>
          if c3 = '(' then
            match splitAtChar ')' rest3 with
            | some (url, rest4) => if url = [] then none else some (url, rest4)
            | none => none
          else none
        | [] => none
      | none => none
    else none
  | _ => none

/-- The scan of `re.sub(r"!\[[^\]]*\]\(([^)]+)\)", lambda m: f"![[{m.group(1)}]]", markdown)`:
at each position try to match; on a match emit `![[` ++ group ++ `]]` and
resume after the match, otherwise copy one character.  Fuel-indexed for
structural recursion. -/
def mdRewriteF : Nat → List Char → List Char
  | _, [] => []
  | 0, s => s
  | fuel + 1, c :: rest =>
    match tryMdMatch (c :: rest) with
    | some (url, rem) => '!' :: '[' :: '[' :: (url ++ ']' :: ']' :: mdRewriteF fuel rem)
    | none => c :: mdRewriteF fuel rest

/-- The Markdown-embed rewrite pass of `process_images`. -/
def mdRewrite (s : List Char) : List Char := mdRewriteF s.length s

/-- The literal `src="`. -/
def srcAttr : List Char := "src=".data ++ ['"']

/-- Length of the longest prefix without '>': the furthest span the
greedy `[^>]*` can cover. -/
def gtLimit (s : List Char) : Nat := (s.takeWhile (fun c => c ≠ '>')).length

/-- The remainder of the img-tag regex `src="([^"]+)"[^>]*/?>` once the
position `q` of `src="` after `<img\s` has been chosen: capture up to the
first '"' (nonempty), then consume up to and including the first '>'. -/
def imgTryAt (rest : List Char) (q : Nat) : Option (List Char × List Char) :=
  match splitAtChar '"' (rest.drop (q + srcAttr.length)) with
  | some (url, rest2) =>
    if url = [] then none
    else
      match splitAtChar '>' rest2 with
      | some (_, rest3) => some (url, rest3)
      | none => none
  | none => none

/-- Try to match `<img\s[^>]*src="([^"]+)"[^>]*/?>` at the start of `s`.
The greedy `[^>]*` backtracks from the rightmost candidate, so the rightmost
`src="` inside the '>'-free span that completes a match wins.  On success,
return the captured `src` value and the remainder after the match. -/
def tryImgMatch : List Char → Option (List Char × List Char)
  | c1 :: c2 :: c3 :: c4 :: c5 :: rest =>
    if c1 = '<' ∧ c2 = 'i' ∧ c3 = 'm' ∧ c4 = 'g' ∧ isSpaceChar c5 then
      (((List.range (gtLimit rest + 1)).filter
          (fun q => srcAttr.isPrefixOf (rest.drop q))).reverse).findSome?
        (imgTryAt rest)
    else none
  | _ => none

/-- The scan of
`re.sub(r'<img\s[^>]*src="([^"]+)"[^>]*/?>', lambda m: f"![[{m.group(1)}]]", markdown)`.
Fuel-indexed for structural recursion. -/
def imgRewriteF : Nat → List Char → List Char
  | _, [] => []
  | 0, s => s
  | fuel + 1, c :: rest =>
    match tryImgMatch (c :: rest) with
    | some (url, rem) => '!' :: '[' :: '[' :: (url ++ ']' :: ']' :: imgRewriteF fuel rem)
    | none => c :: imgRewriteF fuel rest

/-- The HTML-img rewrite pass of `process_images`. -/
def imgRewrite (s : List Char) : List Char := imgRewriteF s.length s

/-- `re.sub(r"(\]\])(!?\[\[)", r"\1 \2", markdown)`: insert a space wherever
a closing `]]` is immediately followed by `[[` or `![[`; the scan resumes
after the opening bracket pair. -/
def adjacencyFix : List Char → List Char
  | x1 :: x2 :: x3 :: x4 :: x5 :: rest =>
    if x1 = ']' ∧ x2 = ']' ∧ x3 = '!' ∧ x4 = '[' ∧ x5 = '[' then
      ']' :: ']' :: ' ' :: '!' :: '[' :: '[' :: adjacencyFix rest
    else if x1 = ']' ∧ x2 = ']' ∧ x3 = '[' ∧ x4 = '[' then
      ']' :: ']' :: ' ' :: '[' :: '[' :: adjacencyFix (x5 :: rest)
    else
      x1 :: adjacencyFix (x2 :: x3 :: x4 :: x5 :: rest)
  | [x1, x2, x3, x4] =>
    if x1 = ']' ∧ x2 = ']' ∧ x3 = '[' ∧ x4 = '[' then
      [']', ']', ' ', '[', '[']
    else
      x1 :: adjacencyFix [x2, x3, x4]
  | s => s

/-- `src_path.relative_to(staging_dir)` as a string for normalized absolute
paths: strip the `staging_dir + "/"` prefix; `none` models the
`ValueError` branch. -/
def relativeTo? (p stagingDir : List Char) : Option (List Char) :=
  if (stagingDir ++ ['/']).isPrefixOf p then some (p.drop (stagingDir.length + 1))
  else none

/-- The per-image markdown substitutions in the loop body of
`process_images`: replace every occurrence of the image's absolute path,
then of its staging-relative path, by the new bare file name.
`ie` is the (1-based counter, entry) pair. -/
def substOne (stagingDir baseName : List Char) (md : List Char)
    (ie : Nat × FSEntry) : List Char :=
  let newName := newImageName baseName ie.1 (extOf ie.2)
  let md1 := replaceAll md ie.2.path newName
  match relativeTo? ie.2.path stagingDir with
  | some rel => replaceAll md1 rel newName
  | none => md1

/-- One iteration of the `for src_path in extracted_images` loop, acting on
the (markdown, renames-so-far) state; the renames component records the
(old source path, new file name) of the `shutil.move` calls. -/
def renameStep (stagingDir baseName : List Char)
    (st : List Char × List (List Char × List Char)) (ie : Nat × FSEntry) :
    List Char × List (List Char × List Char) :=
  (substOne stagingDir baseName st.1 ie,
   st.2 ++ [(ie.2.path, newImageName baseName ie.1 (extOf ie.2))])

/-- `process_images(markdown, staging_dir, dest_dir, base_name)`:
discovery, the early return on the empty case, the per-image renaming and
path substitution loop (1-based counter), then the three rewrite passes.
Returns (processed markdown, image_count, rename trace).  The on-disk side
effects (the moves themselves, optional resizing) act on files, not on the
returned markdown, and are represented by the rename trace. -/
def process_images (markdown stagingDir : List Char) (entries : List FSEntry)
    (baseName : List Char) : List Char × Nat × List (List Char × List Char) :=
  let extractedImages := discoverImages entries
  if extractedImages.isEmpty then (markdown, 0, [])
  else
    let st := (extractedImages.enumFrom 1).foldl
      (renameStep stagingDir baseName) (markdown, [])
    (adjacencyFix (imgRewrite (mdRewrite st.1)), extractedImages.length, st.2)

/-- Does `pat` occur as a contiguous substring of `s`? -/
def containsSub (pat s : List Char) : Bool :=
  (List.range (s.length + 1)).any (fun i => pat.isPrefixOf (s.drop i))

/-- Does `s` contain, at any position, a substring of the Markdown image
form `![<no ']'>](<nonempty, no ')'>)`?  A match of the regex starts at
position `i` exactly when `tryMdMatch` succeeds on `s.drop i`. -/
def hasMdForm (s : List Char) : Bool :=
  (List.range (s.length + 1)).any (fun i => (tryMdMatch (s.drop i)).isSome)

/-- Does `s` contain, at any position, a substring of the HTML img-tag form
matched by the img regex? -/
def hasImgForm (s : List Char) : Bool :=
  (List.range (s.length + 1)).any (fun i => (tryImgMatch (s.drop i)).isSome)

/-- Does `s` contain a Markdown image form whose parenthesized value is
exactly `u`? -/
def mdFormWithUrl (u s : List Char) : Bool :=
  (List.range (s.length + 1)).any (fun i =>
    match tryMdMatch (s.drop i) with
    | some (url, _) => url == u
    | none => false)

/-- Characters that play no role in any of the textual rewrite rules of
`process_images` (used to describe surrounding plain text). -/
def plainChar (c : Char) : Bool :=
  c ≠ '!' && c ≠ '<' && c ≠ '[' && c ≠ ']' && c ≠ '(' && c ≠ ')' &&
    c ≠ '"' && c ≠ '>'

/-- Does the adjacency regex `(\]\])(!?\[\[)` match at the start of `s`? -/
def adjAt (s : List Char) : Bool :=
  (']' :: ']' :: '!' :: '[' :: '[' :: []).isPrefixOf s ||
    (']' :: ']' :: '[' :: '[' :: []).isPrefixOf s

/-- Does the adjacency regex match anywhere in `s`? -/
def hasAdj (s : List Char) : Bool :=
  (List.range (s.length + 1)).any (fun i => adjAt (s.drop i))

/-! ### Helper lemmas: `splitAtChar` -/

theorem splitAtChar_eq_some {c : Char} :
    ∀ {s b a : List Char}, splitAtChar c s = some (b, a) → s = b ++ c :: a ∧ c ∉ b := by
  intro s
  induction s with
  | nil => intro b a h; simp [splitAtChar] at h
  | cons x xs ih =>
    intro b a h
    by_cases hx : x = c
    · rw [splitAtChar, if_pos hx] at h
      simp only [Option.some.injEq, Prod.mk.injEq] at h
      obtain ⟨hb, ha⟩ := h
      subst hb; subst ha; subst hx
      simp
    · rw [splitAtChar, if_neg hx] at h
      rw [Option.map_eq_some'] at h
      obtain ⟨⟨b', a'⟩, hs, hba⟩ := h
      simp only [Prod.mk.injEq] at hba
      obtain ⟨hb, ha⟩ := hba
      subst hb; subst ha
      obtain ⟨h1, h2⟩ := ih hs
      subst h1
      refine ⟨by simp, ?_⟩
      simp only [List.mem_cons, not_or]
      exact ⟨fun hcx => hx hcx.symm, h2⟩

theorem splitAtChar_append {c : Char} :
    ∀ {b : List Char} (a : List Char), c ∉ b → splitAtChar c (b ++ c :: a) = some (b, a) := by
  intro b
  induction b with
  | nil => intro a _; simp [splitAtChar]
  | cons x xs ih =>
    intro a hc
    simp only [List.mem_cons, not_or] at hc
    rw [List.cons_append, splitAtChar, if_neg (fun h => hc.1 h.symm), ih a hc.2]
    rfl

theorem splitAtChar_length {c : Char} {s b a : List Char}
    (h : splitAtChar c s = some (b, a)) : a.length < s.length := by
  obtain ⟨h1, _⟩ := splitAtChar_eq_some h
  subst h1
  simp only [List.length_append, List.length_cons]
  omega

/-! ### Helper lemmas: `replaceAll` -/

theorem replaceAllF_nil (pat rep : List Char) : ∀ n, replaceAllF pat rep n [] = [] := by
  intro n; cases n <;> rfl

theorem replaceAllF_succ (pat rep : List Char) (fuel : Nat) (c : Char) (rest : List Char) :
    replaceAllF pat rep (fuel + 1) (c :: rest) =
      if pat ≠ [] ∧ pat.isPrefixOf (c :: rest) then
        rep ++ replaceAllF pat rep fuel ((c :: rest).drop pat.length)
      else c :: replaceAllF pat rep fuel rest := rfl

theorem replaceAllF_fuel (pat rep : List Char) :
    ∀ (n m : Nat) (s : List Char), s.length ≤ n → s.length ≤ m →
      replaceAllF pat rep n s = replaceAllF pat rep m s := by
  intro n
  induction n with
  | zero =>
    intro m s hn _
    have : s = [] := List.length_eq_zero.mp (Nat.le_zero.mp hn)
    subst this
    rw [replaceAllF_nil, replaceAllF_nil]
  | succ n ih =>
    intro m s hn hm
    cases s with
    | nil => rw [replaceAllF_nil, replaceAllF_nil]
    | cons c rest =>
      simp only [List.length_cons] at hn hm
      cases m with
      | zero => omega
      | succ m =>
        rw [replaceAllF_succ, replaceAllF_succ]
        by_cases h : pat ≠ [] ∧ pat.isPrefixOf (c :: rest)
        · rw [if_pos h, if_pos h]
          have hlen : pat.length ≥ 1 := by
            cases pat with
            | nil => exact absurd rfl h.1
            | cons _ _ => simp
          have hd : ((c :: rest).drop pat.length).length ≤ n := by
            simp only [List.length_drop, List.length_cons]; omega
          have hd2 : ((c :: rest).drop pat.length).length ≤ m := by
            simp only [List.length_drop, List.length_cons]; omega
          rw [ih m _ hd hd2]
        · rw [if_neg h, if_neg h, ih m rest (by omega) (by omega)]

theorem replaceAll_nil (pat rep : List Char) : replaceAll [] pat rep = [] := rfl

theorem replaceAll_cons (pat rep : List Char) (c : Char) (rest : List Char) :
    replaceAll (c :: rest) pat rep =
      if pat ≠ [] ∧ pat.isPrefixOf (c :: rest) then
        rep ++ replaceAll ((c :: rest).drop pat.length) pat rep
      else c :: replaceAll rest pat rep := by
  unfold replaceAll
  rw [show (c :: rest).length = rest.length + 1 from rfl, replaceAllF_succ]
  by_cases h : pat ≠ [] ∧ pat.isPrefixOf (c :: rest)
  · rw [if_pos h, if_pos h]
    have hlen : pat.length ≥ 1 := by
      cases pat with
      | nil => exact absurd rfl h.1
      | cons _ _ => simp
    have : ((c :: rest).drop pat.length).length ≤ rest.length := by
      simp only [List.length_drop, List.length_cons]; omega
    rw [replaceAllF_fuel pat rep rest.length _ _ this (Nat.le_refl _)]
  · rw [if_neg h, if_neg h]

/-- `str.replace` leaves a string without any occurrence of the pattern
unchanged. -/
theorem replaceAll_id (pat rep : List Char) :
    ∀ s : List Char, (∀ i, pat.isPrefixOf (s.drop i) = false) →
      replaceAll s pat rep = s := by
  intro s
  induction s with
  | nil => intro _; rfl
  | cons c rest ih =>
    intro h
    have h0 : pat.isPrefixOf (c :: rest) = false := by
      have := h 0; simpa using this
    rw [replaceAll_cons, if_neg (fun hc => by rw [h0] at hc; exact Bool.false_ne_true hc.2)]
    rw [ih (fun i => by have := h (i + 1); simpa using this)]

/-- `str.replace` replaces an occurrence wherever it stands, with no
anchoring: if no occurrence of `pat` starts inside `a`, the occurrence
sitting between `a` and `b` is replaced and scanning continues on `b`. -/
theorem replaceAll_boundary (pat rep b : List Char) (hp : pat ≠ []) :
    ∀ a : List Char,
      (∀ i, i < a.length → pat.isPrefixOf ((a ++ pat ++ b).drop i) = false) →
      replaceAll (a ++ pat ++ b) pat rep = a ++ rep ++ replaceAll b pat rep := by
  intro a
  induction a with
  | nil =>
    intro _
    cases hpat : pat with
    | nil => exact absurd hpat hp
    | cons p ps =>
      rw [← hpat]
      simp only [List.nil_append]
      have hpfx : pat.isPrefixOf (pat ++ b) = true := by
        rw [List.isPrefixOf_iff_prefix]; exact List.prefix_append _ _
      have : pat ++ b = p :: (ps ++ b) := by rw [hpat]; rfl
      rw [this] at hpfx ⊢
      rw [replaceAll_cons, if_pos ⟨by rw [hpat]; simp, hpfx⟩]
      rw [← this, List.drop_left' rfl]
  | cons c a' ih =>
    intro h
    have h0 : pat.isPrefixOf (c :: (a' ++ pat ++ b)) = false := by
      have := h 0 (by simp)
      simpa using this
    rw [List.cons_append, List.cons_append, replaceAll_cons,
      if_neg (fun hc => by rw [h0] at hc; exact Bool.false_ne_true hc.2)]
    rw [ih (fun i hi => by
      have := h (i + 1) (by simpa using Nat.succ_lt_succ hi)
      simpa using this)]
    simp

/-! ### Helper lemmas: `containsSub` -/

theorem no_occurrence_of_containsSub {pat s : List Char} (hp : pat ≠ [])
    (h : containsSub pat s = false) : ∀ i, pat.isPrefixOf (s.drop i) = false := by
  intro i
  by_cases hi : i ≤ s.length
  · unfold containsSub at h
    rw [List.any_eq_false] at h
    have h2 := h i (by rw [List.mem_range]; omega)
    exact Bool.eq_false_iff.mpr h2
  · rw [List.drop_eq_nil_of_le (by omega)]
    cases pat with
    | nil => exact absurd rfl hp
    | cons p ps => rfl

/-! ### Helper lemmas: the Markdown-embed rewrite pass -/

theorem tryMdMatch_none_of_head {c : Char} (rest : List Char) (hc : c ≠ '!') :
    tryMdMatch (c :: rest) = none := by
  cases rest with
  | nil => rfl
  | cons c2 r =>
    simp only [tryMdMatch]
    rw [if_neg (fun h => hc h.1)]

theorem tryMdMatch_length {s url rem : List Char}
    (h : tryMdMatch s = some (url, rem)) : rem.length < s.length := by
  match s with
  | [] => exact absurd h (by simp [tryMdMatch])
  | [c] => exact absurd h (by simp [tryMdMatch])
  | c1 :: c2 :: rest =>
    simp only [tryMdMatch] at h
    split at h
    · cases hsp : splitAtChar ']' rest with
      | none => rw [hsp] at h; simp at h
      | some p =>
        obtain ⟨alt, rest2⟩ := p
        rw [hsp] at h
        cases rest2 with
        | nil => simp at h
        | cons c3 rest3 =>
          simp only at h
          split at h
          · cases hsp2 : splitAtChar ')' rest3 with
            | none => rw [hsp2] at h; simp at h
            | some q =>
              obtain ⟨url2, rest4⟩ := q
              rw [hsp2] at h
              have h' : (if url2 = [] then none
                  else some (url2, rest4) : Option (List Char × List Char)) =
                  some (url, rem) := h
              by_cases hz : url2 = []
              · rw [if_pos hz] at h'; simp at h'
              · rw [if_neg hz] at h'
                simp only [Option.some.injEq, Prod.mk.injEq] at h'
                obtain ⟨h1, h2⟩ := h'
                subst h1; subst h2
                have l1 := splitAtChar_length hsp
                have l2 := splitAtChar_length hsp2
                simp only [List.length_cons] at l1 ⊢
                omega
          · simp at h
    · simp at h

theorem mdRewriteF_nil : ∀ n, mdRewriteF n [] = [] := by
  intro n; cases n <;> rfl

theorem mdRewriteF_succ (fuel : Nat) (c : Char) (rest : List Char) :
    mdRewriteF (fuel + 1) (c :: rest) =
      match tryMdMatch (c :: rest) with
      | some (url, rem) => '!' :: '[' :: '[' :: (url ++ ']' :: ']' :: mdRewriteF fuel rem)
      | none => c :: mdRewriteF fuel rest := rfl

theorem mdRewriteF_fuel :
    ∀ (n m : Nat) (s : List Char), s.length ≤ n → s.length ≤ m →
      mdRewriteF n s = mdRewriteF m s := by
  intro n
  induction n with
  | zero =>
    intro m s hn _
    have : s = [] := List.length_eq_zero.mp (Nat.le_zero.mp hn)
    subst this
    rw [mdRewriteF_nil, mdRewriteF_nil]
  | succ n ih =>
    intro m s hn hm
    cases s with
    | nil => rw [mdRewriteF_nil, mdRewriteF_nil]
    | cons c rest =>
      simp only [List.length_cons] at hn hm
      cases m with
      | zero => omega
      | succ m =>
        rw [mdRewriteF_succ, mdRewriteF_succ]
        cases h : tryMdMatch (c :: rest) with
        | none =>
          show c :: mdRewriteF n rest = c :: mdRewriteF m rest
          rw [ih m rest (by omega) (by omega)]
        | some p =>
          obtain ⟨url, rem⟩ := p
          show '!' :: '[' :: '[' :: (url ++ ']' :: ']' :: mdRewriteF n rem) =
            '!' :: '[' :: '[' :: (url ++ ']' :: ']' :: mdRewriteF m rem)
          have hl := tryMdMatch_length h
          simp only [List.length_cons] at hl
          rw [ih m rem (by omega) (by omega)]

theorem mdRewrite_cons_none {c : Char} {rest : List Char}
    (h : tryMdMatch (c :: rest) = none) :
    mdRewrite (c :: rest) = c :: mdRewrite rest := by
  unfold mdRewrite
  rw [show (c :: rest).length = rest.length + 1 from rfl, mdRewriteF_succ, h]

theorem mdRewrite_cons_some {c : Char} {rest url rem : List Char}
    (h : tryMdMatch (c :: rest) = some (url, rem)) :
    mdRewrite (c :: rest) = '!' :: '[' :: '[' :: (url ++ ']' :: ']' :: mdRewrite rem) := by
  unfold mdRewrite
  rw [show (c :: rest).length = rest.length + 1 from rfl, mdRewriteF_succ, h]
  show '!' :: '[' :: '[' :: (url ++ ']' :: ']' :: mdRewriteF rest.length rem) = _
  have hl := tryMdMatch_length h
  simp only [List.length_cons] at hl
  rw [mdRewriteF_fuel rest.length rem.length rem (by omega) (Nat.le_refl _)]

/-- A string containing no '!' is untouched by the Markdown-embed rewrite. -/
theorem mdRewrite_id_of_no_bang :
    ∀ s : List Char, (∀ c ∈ s, c ≠ '!') → mdRewrite s = s := by
  intro s
  induction s with
  | nil => intro _; rfl
  | cons c rest ih =>
    intro h
    rw [mdRewrite_cons_none (tryMdMatch_none_of_head rest (h c (by simp)))]
    rw [ih (fun x hx => h x (by simp [hx]))]

/-- The regex matches a well-formed Markdown image reference at the start of
the string, capturing exactly the text inside the parentheses. -/
theorem tryMdMatch_form (alt url b : List Char)
    (hal : ']' ∉ alt) (hu : ')' ∉ url) (hne : url ≠ []) :
    tryMdMatch ('!' :: '[' :: (alt ++ ']' :: '(' :: (url ++ ')' :: b))) =
      some (url, b) := by
  simp only [tryMdMatch]
  rw [if_pos (⟨trivial, trivial⟩ : True ∧ True)]
  rw [show alt ++ ']' :: '(' :: (url ++ ')' :: b) =
        alt ++ ']' :: ('(' :: (url ++ ')' :: b)) from rfl]
  rw [splitAtChar_append _ hal]
  show (if '(' = '(' then
      match splitAtChar ')' (url ++ ')' :: b) with
      | some (u, rest4) => if u = [] then none else some (u, rest4)
      | none => none
    else none) = some (url, b)
  rw [if_pos rfl, splitAtChar_append b hu]
  show (if url = [] then none else some (url, b) : Option (List Char × List Char)) =
    some (url, b)
  rw [if_neg hne]

/-- The Markdown rewrite pass, on a document consisting of '!'-free text,
a well-formed image reference, and a remainder: the reference is rewritten
in place and scanning continues on the remainder. -/
theorem mdRewrite_boundary (alt url b : List Char)
    (hal : ']' ∉ alt) (hu : ')' ∉ url) (hne : url ≠ []) :
    ∀ a : List Char, (∀ c ∈ a, c ≠ '!') →
      mdRewrite (a ++ '!' :: '[' :: (alt ++ ']' :: '(' :: (url ++ ')' :: b))) =
        a ++ '!' :: '[' :: '[' :: (url ++ ']' :: ']' :: mdRewrite b) := by
  intro a
  induction a with
  | nil =>
    intro _
    simp only [List.nil_append]
    rw [mdRewrite_cons_some (tryMdMatch_form alt url b hal hu hne)]
  | cons c a' ih =>
    intro h
    rw [List.cons_append, List.cons_append,
      mdRewrite_cons_none (tryMdMatch_none_of_head _ (h c (by simp)))]
    rw [ih (fun x hx => h x (by simp [hx]))]

/-! ### Helper lemmas: the HTML-img rewrite pass -/

theorem takeWhile_append_all {p : Char → Bool} :
    ∀ {l1 : List Char} (l2 : List Char), (∀ c ∈ l1, p c = true) →
      List.takeWhile p (l1 ++ l2) = l1 ++ List.takeWhile p l2 := by
  intro l1
  induction l1 with
  | nil => intro l2 _; simp
  | cons c cs ih =>
    intro l2 h
    rw [List.cons_append, List.takeWhile_cons, if_pos (h c (by simp)),
      ih l2 (fun x hx => h x (by simp [hx])), List.cons_append]

theorem gtLimit_append (L b : List Char) (hL : ∀ c ∈ L, c ≠ '>') :
    gtLimit (L ++ '>' :: b) = L.length := by
  unfold gtLimit
  rw [takeWhile_append_all ('>' :: b) (fun c hc => by simp [hL c hc])]
  rw [List.takeWhile_cons]
  simp

theorem isPrefixOf_append_left {pat X Y : List Char}
    (h : pat.isPrefixOf (X ++ Y) = true) (hlen : pat.length ≤ X.length) :
    pat.isPrefixOf X = true := by
  rw [List.isPrefixOf_iff_prefix] at h ⊢
  rw [List.prefix_iff_eq_take, List.take_append_eq_append_take,
    Nat.sub_eq_zero_of_le hlen, List.take_zero, List.append_nil] at h
  rw [h]
  exact List.take_prefix _ _

theorem mem_of_isPrefixOf_append {pat X : List Char} {c : Char} {Y : List Char}
    (h : pat.isPrefixOf (X ++ c :: Y) = true) (hlen : X.length < pat.length) :
    c ∈ pat := by
  rw [List.isPrefixOf_iff_prefix, List.prefix_iff_eq_take,
    List.take_append_eq_append_take,
    List.take_of_length_le (by omega)] at h
  have h2 : pat.length - X.length = (pat.length - X.length - 1) + 1 := by omega
  rw [h2, List.take_succ_cons] at h
  rw [h]
  exact List.mem_append_right _ (by simp)

theorem filter_range_unique (p : Nat → Bool) :
    ∀ (n q0 : Nat), q0 < n → (∀ q, q < n → (p q = true ↔ q = q0)) →
      (List.range n).filter p = [q0] := by
  intro n
  induction n with
  | zero => intro q0 h _; omega
  | succ n ih =>
    intro q0 hq0 hp
    rw [List.range_succ, List.filter_append]
    by_cases hq : q0 = n
    · subst hq
      have h1 : (List.range q0).filter p = [] := by
        rw [List.filter_eq_nil_iff]
        intro a ha hc
        rw [List.mem_range] at ha
        have := (hp a (by omega)).mp hc
        omega
      have h2 : p q0 = true := (hp q0 (by omega)).mpr rfl
      rw [h1]
      simp [List.filter, h2]
    · have h1 : (List.range n).filter p = [q0] := by
        apply ih q0 (by omega)
        intro q hqn
        exact hp q (by omega)
      have h2 : p n = false := by
        rw [Bool.eq_false_iff]
        intro hc
        exact hq ((hp n (by omega)).mp hc).symm
      rw [h1]
      simp [List.filter, h2]

theorem imgTryAt_form (pre url post b : List Char)
    (hurl1 : '"' ∉ url) (hne : url ≠ []) (hpost : '>' ∉ post) :
    imgTryAt ((pre ++ srcAttr ++ (url ++ '"' :: post)) ++ '>' :: b) pre.length =
      some (url, b) := by
  unfold imgTryAt
  have hd : ((pre ++ srcAttr ++ (url ++ '"' :: post)) ++ '>' :: b).drop
      (pre.length + srcAttr.length) = url ++ '"' :: (post ++ '>' :: b) := by
    have hsplit : (pre ++ srcAttr ++ (url ++ '"' :: post)) ++ '>' :: b =
        (pre ++ srcAttr) ++ ((url ++ '"' :: post) ++ '>' :: b) := by
      simp [List.append_assoc]
    rw [hsplit, List.drop_left' (by simp)]
    simp [List.append_assoc]
  rw [hd, splitAtChar_append _ hurl1]
  show (if url = [] then none else
      match splitAtChar '>' (post ++ '>' :: b) with
      | some (_, rest3) => some (url, rest3)
      | none => none : Option (List Char × List Char)) = some (url, b)
  rw [if_neg hne, splitAtChar_append b hpost]

theorem imgTryAt_length {rest : List Char} {q : Nat} {url rem : List Char}
    (h : imgTryAt rest q = some (url, rem)) : rem.length < rest.length := by
  unfold imgTryAt at h
  cases h1 : splitAtChar '"' (rest.drop (q + srcAttr.length)) with
  | none => rw [h1] at h; simp at h
  | some p =>
    obtain ⟨u2, rest2⟩ := p
    rw [h1] at h
    have h' : (if u2 = [] then none else
        match splitAtChar '>' rest2 with
        | some (_, rest3) => some (u2, rest3)
        | none => none : Option (List Char × List Char)) = some (url, rem) := h
    by_cases hz : u2 = []
    · rw [if_pos hz] at h'; simp at h'
    · rw [if_neg hz] at h'
      cases h2 : splitAtChar '>' rest2 with
      | none => rw [h2] at h'; simp at h'
      | some p2 =>
        obtain ⟨mid, rest3⟩ := p2
        rw [h2] at h'
        have h'' : (some (u2, rest3) : Option (List Char × List Char)) =
            some (url, rem) := h'
        simp only [Option.some.injEq, Prod.mk.injEq] at h''
        obtain ⟨hu, hr⟩ := h''
        subst hu; subst hr
        have l1 := splitAtChar_length h1
        have l2 := splitAtChar_length h2
        have l3 : (rest.drop (q + srcAttr.length)).length ≤ rest.length := by
          simp [List.length_drop]
        omega

theorem tryImgMatch_none_of_head {c : Char} (rest : List Char) (hc : c ≠ '<') :
    tryImgMatch (c :: rest) = none := by
  match rest with
  | [] => rfl
  | [_] => rfl
  | [_, _] => rfl
  | [_, _, _] => rfl
  | r1 :: r2 :: r3 :: r4 :: rr =>
    simp only [tryImgMatch]
    rw [if_neg (fun h => hc h.1)]

theorem tryImgMatch_length {s url rem : List Char}
    (h : tryImgMatch s = some (url, rem)) : rem.length < s.length := by
  match s with
  | [] => exact absurd h (by simp [tryImgMatch])
  | [_] => exact absurd h (by simp [tryImgMatch])
  | [_, _] => exact absurd h (by simp [tryImgMatch])
  | [_, _, _] => exact absurd h (by simp [tryImgMatch])
  | [_, _, _, _] => exact absurd h (by simp [tryImgMatch])
  | c1 :: c2 :: c3 :: c4 :: c5 :: rest =>
    simp only [tryImgMatch] at h
    split at h
    · obtain ⟨q, hq, hsome⟩ := List.exists_of_findSome?_eq_some h
      have := imgTryAt_length hsome
      simp only [List.length_cons]
      omega
    · simp at h

theorem imgRewriteF_nil : ∀ n, imgRewriteF n [] = [] := by
  intro n; cases n <;> rfl

theorem imgRewriteF_succ (fuel : Nat) (c : Char) (rest : List Char) :
    imgRewriteF (fuel + 1) (c :: rest) =
      match tryImgMatch (c :: rest) with
      | some (url, rem) => '!' :: '[' :: '[' :: (url ++ ']' :: ']' :: imgRewriteF fuel rem)
      | none => c :: imgRewriteF fuel rest := rfl

theorem imgRewriteF_fuel :
    ∀ (n m : Nat) (s : List Char), s.length ≤ n → s.length ≤ m →
      imgRewriteF n s = imgRewriteF m s := by
  intro n
  induction n with
  | zero =>
    intro m s hn _
    have : s = [] := List.length_eq_zero.mp (Nat.le_zero.mp hn)
    subst this
    rw [imgRewriteF_nil, imgRewriteF_nil]
  | succ n ih =>
    intro m s hn hm
    cases s with
    | nil => rw [imgRewriteF_nil, imgRewriteF_nil]
    | cons c rest =>
      simp only [List.length_cons] at hn hm
      cases m with
      | zero => omega
      | succ m =>
        rw [imgRewriteF_succ, imgRewriteF_succ]
        cases h : tryImgMatch (c :: rest) with
        | none =>
          show c :: imgRewriteF n rest = c :: imgRewriteF m rest
          rw [ih m rest (by omega) (by omega)]
        | some p =>
          obtain ⟨url, rem⟩ := p
          show '!' :: '[' :: '[' :: (url ++ ']' :: ']' :: imgRewriteF n rem) =
            '!' :: '[' :: '[' :: (url ++ ']' :: ']' :: imgRewriteF m rem)
          have hl := tryImgMatch_length h
          simp only [List.length_cons] at hl
          rw [ih m rem (by omega) (by omega)]

theorem imgRewrite_cons_none {c : Char} {rest : List Char}
    (h : tryImgMatch (c :: rest) = none) :
    imgRewrite (c :: rest) = c :: imgRewrite rest := by
  unfold imgRewrite
  rw [show (c :: rest).length = rest.length + 1 from rfl, imgRewriteF_succ, h]

theorem imgRewrite_cons_some {c : Char} {rest url rem : List Char}
    (h : tryImgMatch (c :: rest) = some (url, rem)) :
    imgRewrite (c :: rest) = '!' :: '[' :: '[' :: (url ++ ']' :: ']' :: imgRewrite rem) := by
  unfold imgRewrite
  rw [show (c :: rest).length = rest.length + 1 from rfl, imgRewriteF_succ, h]
  show '!' :: '[' :: '[' :: (url ++ ']' :: ']' :: imgRewriteF rest.length rem) = _
  have hl := tryImgMatch_length h
  simp only [List.length_cons] at hl
  rw [imgRewriteF_fuel rest.length rem.length rem (by omega) (Nat.le_refl _)]

/-- A string containing no '<' is untouched by the HTML-img rewrite. -/
theorem imgRewrite_id_of_no_lt :
    ∀ s : List Char, (∀ c ∈ s, c ≠ '<') → imgRewrite s = s := by
  intro s
  induction s with
  | nil => intro _; rfl
  | cons c rest ih =>
    intro h
    rw [imgRewrite_cons_none (tryImgMatch_none_of_head rest (h c (by simp)))]
    rw [ih (fun x hx => h x (by simp [hx]))]

/-- The img regex matches a well-formed img tag with a unique `src="`
attribute at the start of the string, capturing its value. -/
theorem tryImgMatch_form (ws : Char) (pre url post b : List Char)
    (hws : isSpaceChar ws = true)
    (hpre : ∀ c ∈ pre, c ≠ '>') (hurl1 : '"' ∉ url) (hurl2 : '>' ∉ url)
    (hne : url ≠ []) (hpost : '>' ∉ post)
    (huniq : ∀ i, i ≤ (pre ++ srcAttr ++ (url ++ '"' :: post)).length →
      srcAttr.isPrefixOf
        ((pre ++ srcAttr ++ (url ++ '"' :: post)).drop i) = true → i = pre.length) :
    tryImgMatch ('<' :: 'i' :: 'm' :: 'g' :: ws ::
        (pre ++ srcAttr ++ (url ++ '"' :: (post ++ '>' :: b)))) =
      some (url, b) := by
  have hL : ∀ c ∈ pre ++ srcAttr ++ (url ++ '"' :: post), c ≠ '>' := by
    intro c hc
    simp only [List.mem_append, List.mem_cons] at hc
    rcases hc with (hc | hc) | hc | hc | hc
    · exact hpre c hc
    · intro he; subst he; simp [srcAttr] at hc
    · intro he; subst he; exact hurl2 hc
    · subst hc; decide
    · intro he; subst he; exact hpost hc
  have hrest : pre ++ srcAttr ++ (url ++ '"' :: (post ++ '>' :: b)) =
      (pre ++ srcAttr ++ (url ++ '"' :: post)) ++ '>' :: b := by
    simp [List.append_assoc]
  simp only [tryImgMatch]
  rw [if_pos ⟨trivial, trivial, trivial, trivial, hws⟩]
  rw [hrest, gtLimit_append _ _ hL]
  have hfilter : (List.range ((pre ++ srcAttr ++ (url ++ '"' :: post)).length + 1)).filter
      (fun q => srcAttr.isPrefixOf
        (((pre ++ srcAttr ++ (url ++ '"' :: post)) ++ '>' :: b).drop q)) = [pre.length] := by
    apply filter_range_unique
    · simp only [List.length_append]; omega
    · intro q hq
      constructor
      · intro hpfx
        by_cases hc : q + srcAttr.length ≤ (pre ++ srcAttr ++ (url ++ '"' :: post)).length
        · have hdrop : ((pre ++ srcAttr ++ (url ++ '"' :: post)) ++ '>' :: b).drop q =
              ((pre ++ srcAttr ++ (url ++ '"' :: post)).drop q) ++ '>' :: b := by
            rw [List.drop_append_eq_append_drop,
              Nat.sub_eq_zero_of_le (by omega), List.drop_zero]
          rw [hdrop] at hpfx
          apply huniq q (by omega)
          apply isPrefixOf_append_left hpfx
          simp only [List.length_drop]
          omega
        · exfalso
          have hdrop : ((pre ++ srcAttr ++ (url ++ '"' :: post)) ++ '>' :: b).drop q =
              ((pre ++ srcAttr ++ (url ++ '"' :: post)).drop q) ++ '>' :: b := by
            rw [List.drop_append_eq_append_drop,
              Nat.sub_eq_zero_of_le (by omega), List.drop_zero]
          rw [hdrop] at hpfx
          have hmem : '>' ∈ srcAttr := by
            apply mem_of_isPrefixOf_append hpfx
            simp only [List.length_drop]
            omega
          simp [srcAttr] at hmem
      · intro hq0
        subst hq0
        have hdrop : ((pre ++ srcAttr ++ (url ++ '"' :: post)) ++ '>' :: b).drop pre.length =
            srcAttr ++ (url ++ '"' :: post ++ '>' :: b) := by
          rw [show (pre ++ srcAttr ++ (url ++ '"' :: post)) ++ '>' :: b =
              pre ++ (srcAttr ++ (url ++ '"' :: post ++ '>' :: b)) from by
            simp [List.append_assoc]]
          exact List.drop_left' rfl
        rw [hdrop, List.isPrefixOf_iff_prefix]
        exact List.prefix_append _ _
  rw [hfilter, List.reverse_singleton, List.findSome?_cons]
  rw [imgTryAt_form pre url post b hurl1 hne hpost]

/-- The img rewrite pass on a document consisting of '<'-free text, a
well-formed img tag, and a remainder. -/
theorem imgRewrite_boundary (ws : Char) (pre url post b : List Char)
    (hws : isSpaceChar ws = true)
    (hpre : ∀ c ∈ pre, c ≠ '>') (hurl1 : '"' ∉ url) (hurl2 : '>' ∉ url)
    (hne : url ≠ []) (hpost : '>' ∉ post)
    (huniq : ∀ i, i ≤ (pre ++ srcAttr ++ (url ++ '"' :: post)).length →
      srcAttr.isPrefixOf
        ((pre ++ srcAttr ++ (url ++ '"' :: post)).drop i) = true → i = pre.length) :
    ∀ a : List Char, (∀ c ∈ a, c ≠ '<') →
      imgRewrite (a ++ '<' :: 'i' :: 'm' :: 'g' :: ws ::
          (pre ++ srcAttr ++ (url ++ '"' :: (post ++ '>' :: b)))) =
        a ++ '!' :: '[' :: '[' :: (url ++ ']' :: ']' :: imgRewrite b) := by
  intro a
  induction a with
  | nil =>
    intro _
    simp only [List.nil_append]
    rw [imgRewrite_cons_some
      (tryImgMatch_form ws pre url post b hws hpre hurl1 hurl2 hne hpost huniq)]
  | cons c a' ih =>
    intro h
    rw [List.cons_append, List.cons_append,
      imgRewrite_cons_none (tryImgMatch_none_of_head _ (h c (by simp)))]
    rw [ih (fun x hx => h x (by simp [hx]))]

/-! ### Helper lemmas: the adjacency-spacing pass -/

theorem isPrefixOf_cons_iff {p c : Char} {ps t : List Char} :
    (p :: ps).isPrefixOf (c :: t) = true ↔ p = c ∧ ps.isPrefixOf t = true := by
  simp [List.isPrefixOf]

theorem plainChar_spec {c : Char} (h : plainChar c = true) :
    c ≠ '!' ∧ c ≠ '<' ∧ c ≠ '[' ∧ c ≠ ']' ∧ c ≠ '(' ∧ c ≠ ')' ∧ c ≠ '"' ∧ c ≠ '>' := by
  have h2 := h
  simp only [plainChar, Bool.and_eq_true, decide_eq_true_eq] at h2
  tauto

theorem adjAt_false_of_head {c : Char} (t : List Char) (hc : c ≠ ']') :
    adjAt (c :: t) = false := by
  unfold adjAt
  rw [Bool.or_eq_false_iff]
  constructor <;>
    (rw [Bool.eq_false_iff]
     intro hp
     exact hc ((isPrefixOf_cons_iff.mp hp).1).symm)

/-- At a position where the adjacency regex does not match, the scan copies
one character and continues. -/
theorem adjacencyFix_cons_none {c : Char} {t : List Char} (h : adjAt (c :: t) = false) :
    adjacencyFix (c :: t) = c :: adjacencyFix t := by
  unfold adjAt at h
  rw [Bool.or_eq_false_iff] at h
  obtain ⟨h1, h2⟩ := h
  match t with
  | [] => rfl
  | [a] => rfl
  | [a, b] => rfl
  | [a, b, d] =>
    show adjacencyFix [c, a, b, d] = c :: adjacencyFix [a, b, d]
    simp only [adjacencyFix]
    rw [if_neg]
    intro he
    obtain ⟨e1, e2, e3, e4⟩ := he
    subst e1; subst e2; subst e3; subst e4
    simp [List.isPrefixOf] at h2
  | a :: b :: d :: e :: tt =>
    simp only [adjacencyFix]
    rw [if_neg, if_neg]
    · intro he
      obtain ⟨e1, e2, e3, e4⟩ := he
      subst e1; subst e2; subst e3; subst e4
      simp [List.isPrefixOf] at h2
    · intro he
      obtain ⟨e1, e2, e3, e4, e5⟩ := he
      subst e1; subst e2; subst e3; subst e4; subst e5
      simp [List.isPrefixOf] at h1

/-- A string with no ']' at all is untouched by the adjacency pass. -/
theorem adjacencyFix_plain :
    ∀ s : List Char, (∀ c ∈ s, c ≠ ']') → adjacencyFix s = s := by
  intro s
  induction s with
  | nil => intro _; rfl
  | cons c rest ih =>
    intro h
    rw [adjacencyFix_cons_none (adjAt_false_of_head rest (h c (by simp)))]
    rw [ih (fun x hx => h x (by simp [hx]))]

/-- The adjacency scan passes over a ']'-free prefix unchanged. -/
theorem adjacencyFix_append_plain (s : List Char) :
    ∀ a : List Char, (∀ c ∈ a, c ≠ ']') →
      adjacencyFix (a ++ s) = a ++ adjacencyFix s := by
  intro a
  induction a with
  | nil => intro _; simp
  | cons c a' ih =>
    intro h
    rw [List.cons_append,
      adjacencyFix_cons_none (adjAt_false_of_head _ (h c (by simp)))]
    rw [ih (fun x hx => h x (by simp [hx])), List.cons_append]

/-- `]]` immediately followed by `![[`: one space is inserted and the scan
resumes after the opening brackets. -/
theorem adjacencyFix_match_bang (b : List Char) :
    adjacencyFix (']' :: ']' :: '!' :: '[' :: '[' :: b) =
      ']' :: ']' :: ' ' :: '!' :: '[' :: '[' :: adjacencyFix b := rfl

/-- `]]` immediately followed by `[[`: one space is inserted and the scan
resumes after the opening brackets. -/
theorem adjacencyFix_match_nobang (b : List Char) :
    adjacencyFix (']' :: ']' :: '[' :: '[' :: b) =
      ']' :: ']' :: ' ' :: '[' :: '[' :: adjacencyFix b := by
  cases b with
  | nil => rfl
  | cons x bb => rfl

/-- A `]]` pair followed by plain text is not an adjacency site. -/
theorem adjacencyFix_dd (b : List Char) (hb : ∀ c ∈ b, plainChar c = true) :
    adjacencyFix (']' :: ']' :: b) = ']' :: ']' :: b := by
  have hbn : ∀ c ∈ b, c ≠ ']' := fun c hc => (plainChar_spec (hb c hc)).2.2.2.1
  have hstep1 : adjAt (']' :: ']' :: b) = false := by
    unfold adjAt
    rw [Bool.or_eq_false_iff]
    constructor <;> (rw [Bool.eq_false_iff]; intro hp)
    · have h3 := (isPrefixOf_cons_iff.mp ((isPrefixOf_cons_iff.mp hp).2)).2
      cases b with
      | nil => simp [List.isPrefixOf] at h3
      | cons x bb =>
        have hx : '!' = x := (isPrefixOf_cons_iff.mp h3).1
        exact (plainChar_spec (hb x (by simp))).1 hx.symm
    · have h3 := (isPrefixOf_cons_iff.mp ((isPrefixOf_cons_iff.mp hp).2)).2
      cases b with
      | nil => simp [List.isPrefixOf] at h3
      | cons x bb =>
        have hx : '[' = x := (isPrefixOf_cons_iff.mp h3).1
        exact (plainChar_spec (hb x (by simp))).2.2.1 hx.symm
  have hstep2 : adjAt (']' :: b) = false := by
    unfold adjAt
    rw [Bool.or_eq_false_iff]
    constructor <;> (rw [Bool.eq_false_iff]; intro hp)
    · have h3 := (isPrefixOf_cons_iff.mp hp).2
      cases b with
      | nil => simp [List.isPrefixOf] at h3
      | cons x bb =>
        have hx : ']' = x := (isPrefixOf_cons_iff.mp h3).1
        exact hbn x (by simp) hx.symm
    · have h3 := (isPrefixOf_cons_iff.mp hp).2
      cases b with
      | nil => simp [List.isPrefixOf] at h3
      | cons x bb =>
        have hx : ']' = x := (isPrefixOf_cons_iff.mp h3).1
        exact hbn x (by simp) hx.symm
  rw [adjacencyFix_cons_none hstep1, adjacencyFix_cons_none hstep2,
    adjacencyFix_plain b hbn]

theorem hasAdj_cons_false {c : Char} {rest : List Char} (h : hasAdj (c :: rest) = false) :
    adjAt (c :: rest) = false ∧ hasAdj rest = false := by
  unfold hasAdj at h ⊢
  rw [List.any_eq_false] at h
  constructor
  · have h0 := h 0 (by simp)
    rw [List.drop_zero] at h0
    exact Bool.eq_false_iff.mpr h0
  · rw [List.any_eq_false]
    intro i hi
    rw [List.mem_range] at hi
    have hs := h (i + 1) (by rw [List.mem_range]; simp only [List.length_cons]; omega)
    rw [List.drop_succ_cons] at hs
    exact hs

/-- A string where the adjacency regex matches nowhere is unchanged. -/
theorem adjacencyFix_id_of_no_adj :
    ∀ s : List Char, hasAdj s = false → adjacencyFix s = s := by
  intro s
  induction s with
  | nil => intro _; rfl
  | cons c rest ih =>
    intro h
    obtain ⟨h1, h2⟩ := hasAdj_cons_false h
    rw [adjacencyFix_cons_none h1, ih h2]

/-! ### Helper lemmas: `slugify` -/

theorem toNat_ofNat_of_valid {n : Nat} (h : n.isValidChar) : (Char.ofNat n).toNat = n := by
  unfold Char.ofNat
  rw [dif_pos h]
  unfold Char.ofNatAux Char.toNat
  simp [UInt32.toNat]

/-- ASCII lowercasing is idempotent. -/
theorem toLower_toLower (c : Char) : c.toLower.toLower = c.toLower := by
  by_cases h : c.toNat ≥ 65 ∧ c.toNat ≤ 90
  · have h1 : c.toLower = Char.ofNat (c.toNat + 32) := by
      simp only [Char.toLower]
      rw [if_pos h]
    have hv : (c.toNat + 32).isValidChar := Or.inl (by omega)
    have h2 : (Char.ofNat (c.toNat + 32)).toNat = c.toNat + 32 :=
      toNat_ofNat_of_valid hv
    rw [h1]
    simp only [Char.toLower]
    rw [h2, if_neg (by omega)]
  · have h1 : c.toLower = c := by
      simp only [Char.toLower]
      rw [if_neg h]
    rw [h1, h1]

theorem mem_dropWhile {p : Char → Bool} {s : List Char} {c : Char}
    (h : c ∈ s.dropWhile p) : c ∈ s := by
  rw [← List.takeWhile_append_dropWhile p s]
  exact List.mem_append_right _ h

theorem mem_stripWhile {p : Char → Bool} {s : List Char} {c : Char}
    (h : c ∈ stripWhile p s) : c ∈ s := by
  unfold stripWhile at h
  rw [List.mem_reverse] at h
  have h2 := mem_dropWhile h
  rw [List.mem_reverse] at h2
  exact mem_dropWhile h2

theorem mem_collapseRuns {p : Char → Bool} {r : Char} :
    ∀ (s : List Char) (c : Char), c ∈ collapseRuns p r s →
      c = r ∨ (c ∈ s ∧ p c = false)
  | [], c, h => by simp [collapseRuns] at h
  | [x], c, h => by
    simp only [collapseRuns] at h
    by_cases hx : p x = true
    · rw [if_pos hx] at h
      simp at h
      exact Or.inl h
    · rw [if_neg hx] at h
      simp at h
      subst h
      exact Or.inr ⟨by simp, Bool.eq_false_iff.mpr hx⟩
  | x1 :: x2 :: rest, c, h => by
    simp only [collapseRuns] at h
    by_cases h1 : p x1 = true
    · rw [if_pos h1] at h
      by_cases h2 : p x2 = true
      · rw [if_pos h2] at h
        rcases mem_collapseRuns (x2 :: rest) c h with h' | ⟨ha, hb⟩
        · exact Or.inl h'
        · refine Or.inr ⟨?_, hb⟩
          simp only [List.mem_cons] at ha ⊢
          tauto
      · rw [if_neg h2] at h
        rcases List.mem_cons.mp h with h' | h'
        · exact Or.inl h'
        · rcases List.mem_cons.mp h' with h'' | h''
          · subst h''
            exact Or.inr ⟨by simp, Bool.eq_false_iff.mpr h2⟩
          · rcases mem_collapseRuns rest c h'' with h3 | ⟨h3, h4⟩
            · exact Or.inl h3
            · exact Or.inr ⟨by simp [h3], h4⟩
    · rw [if_neg h1] at h
      rcases List.mem_cons.mp h with h' | h'
      · subst h'
        exact Or.inr ⟨by simp, Bool.eq_false_iff.mpr h1⟩
      · rcases mem_collapseRuns (x2 :: rest) c h' with h3 | ⟨h3, h4⟩
        · exact Or.inl h3
        · refine Or.inr ⟨?_, h4⟩
          simp only [List.mem_cons] at h3 ⊢
          tauto

/-- In the output of `collapseRuns`, two adjacent characters never both
satisfy `p` (every maximal run was collapsed to a single character). -/
theorem chain_collapseRuns {p : Char → Bool} {r : Char} :
    ∀ s : List Char,
      List.Chain' (fun a b => p a = false ∨ p b = false) (collapseRuns p r s)
  | [] => by simp [collapseRuns]
  | [c] => by
    simp only [collapseRuns]
    by_cases hc : p c = true
    · rw [if_pos hc]; simp
    · rw [if_neg hc]; simp
  | c1 :: c2 :: rest => by
    simp only [collapseRuns]
    by_cases h1 : p c1 = true
    · by_cases h2 : p c2 = true
      · rw [if_pos h1, if_pos h2]
        exact chain_collapseRuns (c2 :: rest)
      · rw [if_pos h1, if_neg h2]
        have h2' : p c2 = false := Bool.eq_false_iff.mpr h2
        rw [List.chain'_cons']
        refine ⟨fun y hy => ?_, ?_⟩
        · simp only [List.head?_cons, Option.mem_def, Option.some.injEq] at hy
          subst hy
          exact Or.inr h2'
        · rw [List.chain'_cons']
          exact ⟨fun y _ => Or.inl h2', chain_collapseRuns rest⟩
    · rw [if_neg h1]
      rw [List.chain'_cons']
      exact ⟨fun y _ => Or.inl (Bool.eq_false_iff.mpr h1), chain_collapseRuns (c2 :: rest)⟩

theorem collapseRuns_id_of_none {p : Char → Bool} {r : Char} :
    ∀ s : List Char, (∀ c ∈ s, p c = false) → collapseRuns p r s = s
  | [], _ => rfl
  | [c], h => by
    simp only [collapseRuns]
    rw [if_neg (by simp [h c (by simp)])]
  | c1 :: c2 :: rest, h => by
    simp only [collapseRuns]
    rw [if_neg (by simp [h c1 (by simp)])]
    rw [collapseRuns_id_of_none (c2 :: rest) (fun x hx => h x (by simp [hx]))]

theorem collapseRuns_id_of_chain {p : Char → Bool} {r : Char}
    (hr : ∀ c, p c = true → c = r) :
    ∀ s : List Char,
      List.Chain' (fun a b => p a = false ∨ p b = false) s →
      collapseRuns p r s = s
  | [], _ => rfl
  | [c], _ => by
    simp only [collapseRuns]
    by_cases hc : p c = true
    · rw [if_pos hc, hr c hc]
    · rw [if_neg hc]
  | c1 :: c2 :: rest, hch => by
    have hch1 := (List.chain'_cons.mp hch).1
    have hch2 := (List.chain'_cons.mp hch).2
    simp only [collapseRuns]
    by_cases h1 : p c1 = true
    · have h2 : p c2 = false := by
        rcases hch1 with h' | h'
        · rw [h1] at h'; exact absurd h' (by simp)
        · exact h'
      rw [if_pos h1, if_neg (by simp [h2])]
      rw [hr c1 h1]
      rw [collapseRuns_id_of_chain hr rest (List.chain'_cons'.mp hch2).2]
    · rw [if_neg h1]
      rw [collapseRuns_id_of_chain hr (c2 :: rest) hch2]

theorem dropWhile_eq_self_of_none {p : Char → Bool} {s : List Char}
    (h : ∀ x ∈ s.head?, p x = false) : s.dropWhile p = s := by
  cases s with
  | nil => rfl
  | cons c rest =>
    rw [List.dropWhile_cons, if_neg (by simp [h c (by simp)])]

theorem stripWhile_eq_self {p : Char → Bool} {s : List Char}
    (h1 : ∀ x ∈ s.head?, p x = false) (h2 : ∀ x ∈ s.getLast?, p x = false) :
    stripWhile p s = s := by
  unfold stripWhile
  rw [dropWhile_eq_self_of_none h1]
  rw [dropWhile_eq_self_of_none (by rw [List.head?_reverse]; exact h2)]
  rw [List.reverse_reverse]

theorem stripWhile_eq_self_of_all {p : Char → Bool} {s : List Char}
    (h : ∀ c ∈ s, p c = false) : stripWhile p s = s :=
  stripWhile_eq_self (fun x hx => h x (List.mem_of_mem_head? hx))
    (fun x hx => h x (List.mem_of_getLast?_eq_some hx))

theorem head_dropWhile_false {p : Char → Bool} :
    ∀ (s : List Char), ∀ x ∈ (s.dropWhile p).head?, p x = false
  | [], x, h => by simp at h
  | c :: rest, x, h => by
    rw [List.dropWhile_cons] at h
    by_cases hc : p c = true
    · rw [if_pos hc] at h
      exact head_dropWhile_false rest x h
    · rw [if_neg hc] at h
      simp only [List.head?_cons, Option.mem_def, Option.some.injEq] at h
      subst h
      exact Bool.eq_false_iff.mpr hc

theorem getLast?_dropWhile_eq {p : Char → Bool} {s : List Char} {x : Char}
    (h : (s.dropWhile p).getLast? = some x) : s.getLast? = some x := by
  conv_lhs => rw [← List.takeWhile_append_dropWhile p s]
  rw [List.getLast?_append, h]
  rfl

theorem stripWhile_head {p : Char → Bool} (s : List Char) :
    ∀ x ∈ (stripWhile p s).head?, p x = false := by
  intro x hx
  unfold stripWhile at hx
  rw [List.head?_reverse] at hx
  have h2 := getLast?_dropWhile_eq hx
  rw [List.getLast?_reverse] at h2
  exact head_dropWhile_false _ x h2

theorem stripWhile_last {p : Char → Bool} (s : List Char) :
    ∀ x ∈ (stripWhile p s).getLast?, p x = false := by
  intro x hx
  unfold stripWhile at hx
  rw [List.getLast?_reverse] at hx
  exact head_dropWhile_false _ x hx

theorem chain'_dropWhile {R : Char → Char → Prop} {p : Char → Bool} {s : List Char}
    (h : List.Chain' R s) : List.Chain' R (s.dropWhile p) := by
  conv at h => rw [← List.takeWhile_append_dropWhile p s]
  exact (List.chain'_append.mp h).2.1

theorem chain'_stripWhile {R : Char → Char → Prop} (hsym : ∀ a b, R a b → R b a)
    {p : Char → Bool} {s : List Char} (h : List.Chain' R s) :
    List.Chain' R (stripWhile p s) := by
  unfold stripWhile
  rw [List.chain'_reverse]
  apply List.Chain'.imp (fun a b hab => hsym a b hab)
  apply chain'_dropWhile
  rw [List.chain'_reverse]
  apply List.Chain'.imp (fun a b hab => hsym a b hab)
  exact chain'_dropWhile h

/-- Every character of a slug is a kept character, is not whitespace, and is
fixed by lowercasing. -/
theorem slugify_chars (t : List Char) :
    ∀ c ∈ slugify t, keepChar c = true ∧ isSpaceChar c = false ∧ c.toLower = c := by
  intro c hc
  simp only [slugify] at hc
  have h4 := mem_stripWhile hc
  rcases mem_collapseRuns _ c h4 with h | ⟨h3, _⟩
  · subst h; exact ⟨by decide, by decide, by decide⟩
  · rcases mem_collapseRuns _ c h3 with h | ⟨h2, hsp⟩
    · subst h; exact ⟨by decide, by decide, by decide⟩
    · have hkeep := List.mem_filter.mp h2
      have h1 := mem_stripWhile hkeep.1
      rw [List.mem_map] at h1
      obtain ⟨x, _, hx⟩ := h1
      refine ⟨hkeep.2, hsp, ?_⟩
      rw [← hx]
      exact toLower_toLower x

/-- A slug never contains two adjacent underscores. -/
theorem slugify_chain (t : List Char) :
    List.Chain' (fun a b => decide (a = '_') = false ∨ decide (b = '_') = false)
      (slugify t) := by
  simp only [slugify]
  apply chain'_stripWhile
  · intro a b hab; tauto
  · exact chain_collapseRuns _

/-- A slug never starts with an underscore. -/
theorem slugify_head (t : List Char) :
    ∀ x ∈ (slugify t).head?, decide (x = '_') = false := by
  simp only [slugify]
  exact stripWhile_head _

/-- A slug never ends with an underscore. -/
theorem slugify_last (t : List Char) :
    ∀ x ∈ (slugify t).getLast?, decide (x = '_') = false := by
  simp only [slugify]
  exact stripWhile_last _

/-- A string already in slug normal form is fixed by `slugify`. -/
theorem slugify_eq_self {s : List Char}
    (hchars : ∀ c ∈ s, keepChar c = true ∧ isSpaceChar c = false ∧ c.toLower = c)
    (hchain : List.Chain' (fun a b => decide (a = '_') = false ∨ decide (b = '_') = false) s)
    (hhead : ∀ x ∈ s.head?, decide (x = '_') = false)
    (hlast : ∀ x ∈ s.getLast?, decide (x = '_') = false) :
    slugify s = s := by
  simp only [slugify]
  have hmap : s.map Char.toLower = s := by
    rw [show s.map Char.toLower = s.map id from
      List.map_congr_left (fun a ha => (hchars a ha).2.2), List.map_id]
  rw [hmap]
  rw [stripWhile_eq_self_of_all (fun c hc => (hchars c hc).2.1)]
  rw [List.filter_eq_self.mpr (fun a ha => (hchars a ha).1)]
  rw [collapseRuns_id_of_none _ (fun c hc => (hchars c hc).2.1)]
  rw [collapseRuns_id_of_chain (fun c hcc => of_decide_eq_true hcc) _ hchain]
  exact stripWhile_eq_self hhead hlast

/-! ### Helper lemmas: path order and discovery -/

theorem char_eq_of_toNat_eq {a b : Char} (h : a.toNat = b.toNat) : a = b :=
  Char.eq_of_val_eq (UInt32.ext h)

theorem lexLt_trans : ∀ a b c : List Char,
    lexLt a b = true → lexLt b c = true → lexLt a c = true
  | [], [], _, h1, _ => by simp [lexLt] at h1
  | [], _ :: _, [], _, h2 => by simp [lexLt] at h2
  | [], _ :: _, _ :: _, _, _ => rfl
  | _ :: _, [], _, h1, _ => by simp [lexLt] at h1
  | _ :: _, _ :: _, [], _, h2 => by simp [lexLt] at h2
  | a :: as, b :: bs, c :: cs, h1, h2 => by
    simp only [lexLt] at h1 h2 ⊢
    by_cases hab : a.toNat < b.toNat
    · by_cases hbc : b.toNat < c.toNat
      · rw [if_pos (by omega)]
      · rw [if_neg hbc] at h2
        by_cases hcb : c.toNat < b.toNat
        · rw [if_pos hcb] at h2; exact absurd h2 (by simp)
        · rw [if_pos (by omega)]
    · rw [if_neg hab] at h1
      by_cases hba : b.toNat < a.toNat
      · rw [if_pos hba] at h1; exact absurd h1 (by simp)
      · rw [if_neg hba] at h1
        by_cases hbc : b.toNat < c.toNat
        · rw [if_pos (by omega)]
        · rw [if_neg hbc] at h2
          by_cases hcb : c.toNat < b.toNat
          · rw [if_pos hcb] at h2; exact absurd h2 (by simp)
          · rw [if_neg hcb] at h2
            rw [if_neg (by omega), if_neg (by omega)]
            exact lexLt_trans as bs cs h1 h2

theorem lexLt_asymm : ∀ a b : List Char,
    lexLt a b = true → lexLt b a = false
  | [], [], h => by simp [lexLt] at h
  | [], _ :: _, _ => rfl
  | _ :: _, [], h => by simp [lexLt] at h
  | a :: as, b :: bs, h => by
    simp only [lexLt] at h ⊢
    by_cases hab : a.toNat < b.toNat
    · rw [if_neg (by omega), if_pos hab]
    · rw [if_neg hab] at h
      by_cases hba : b.toNat < a.toNat
      · rw [if_pos hba] at h; exact absurd h (by simp)
      · rw [if_neg hba] at h
        rw [if_neg hba, if_neg hab]
        exact lexLt_asymm as bs h

theorem lexLt_connex : ∀ a b : List Char,
    a ≠ b → lexLt a b = true ∨ lexLt b a = true
  | [], [], hne => absurd rfl hne
  | [], _ :: _, _ => Or.inl rfl
  | _ :: _, [], _ => Or.inr rfl
  | a :: as, b :: bs, hne => by
    simp only [lexLt]
    rcases Nat.lt_trichotomy a.toNat b.toNat with h | h | h
    · left; rw [if_pos h]
    · have hab : a = b := char_eq_of_toNat_eq h
      have h1 : ¬ a.toNat < b.toNat := by omega
      have h2 : ¬ b.toNat < a.toNat := by omega
      rw [if_neg h1, if_neg h2, if_neg h2, if_neg h1]
      refine lexLt_connex as bs (fun he => hne ?_)
      rw [hab, he]
    · right; rw [if_pos h]

theorem partsLe_total : ∀ x y : List (List Char),
    partsLe x y = true ∨ partsLe y x = true
  | [], _ => Or.inl rfl
  | _ :: _, [] => Or.inr rfl
  | a :: as, b :: bs => by
    simp only [partsLe]
    by_cases hab : a = b
    · rw [if_pos hab, if_pos hab.symm]
      exact partsLe_total as bs
    · rw [if_neg hab, if_neg (fun h => hab h.symm)]
      exact lexLt_connex a b hab

theorem partsLe_trans : ∀ x y z : List (List Char),
    partsLe x y = true → partsLe y z = true → partsLe x z = true
  | [], _, _, _, _ => rfl
  | _ :: _, [], _, h1, _ => by simp [partsLe] at h1
  | _ :: _, _ :: _, [], _, h2 => by simp [partsLe] at h2
  | a :: as, b :: bs, c :: cs, h1, h2 => by
    simp only [partsLe] at h1 h2 ⊢
    by_cases hab : a = b
    · subst hab
      by_cases hac : a = c
      · subst hac
        rw [if_pos rfl] at h1 h2 ⊢
        exact partsLe_trans as bs cs h1 h2
      · rw [if_pos rfl] at h1
        rw [if_neg hac] at h2 ⊢
        exact h2
    · rw [if_neg hab] at h1
      by_cases hbc : b = c
      · subst hbc
        rw [if_neg hab]
        exact h1
      · rw [if_neg hbc] at h2
        have hlt : lexLt a c = true := lexLt_trans a b c h1 h2
        have hac : a ≠ c := by
          intro he
          subst he
          have := lexLt_asymm a b h1
          rw [this] at h2
          exact absurd h2 (by simp)
        rw [if_neg hac]
        exact hlt

instance : IsTotal FSEntry entryLe :=
  ⟨fun a b => partsLe_total (pathParts a.path) (pathParts b.path)⟩

instance : IsTrans FSEntry entryLe :=
  ⟨fun a b c =>
    partsLe_trans (pathParts a.path) (pathParts b.path) (pathParts c.path)⟩

/-- Discovery returns exactly the image files of the subtree. -/
theorem mem_discoverImages (entries : List FSEntry) (e : FSEntry) :
    e ∈ discoverImages entries ↔ e ∈ entries ∧ isImageFile e = true := by
  unfold discoverImages
  rw [List.mem_insertionSort]
  rw [List.mem_filter]

/-- Discovery returns a list sorted by pathlib's parts-wise path order. -/
theorem sorted_discoverImages (entries : List FSEntry) :
    List.Sorted entryLe (discoverImages entries) :=
  List.sorted_insertionSort entryLe _

/-! ### Helper lemmas: `process_images` -/

theorem foldl_renameStep_fst (sd bn : List Char) :
    ∀ (l : List (Nat × FSEntry)) (md : List Char) (rens : List (List Char × List Char)),
      (l.foldl (renameStep sd bn) (md, rens)).1 = l.foldl (substOne sd bn) md := by
  intro l
  induction l with
  | nil => intro md rens; rfl
  | cons ie l ih =>
    intro md rens
    rw [List.foldl_cons, List.foldl_cons]
    exact ih _ _

theorem foldl_renameStep_snd (sd bn : List Char) :
    ∀ (l : List (Nat × FSEntry)) (md : List Char) (rens : List (List Char × List Char)),
      (l.foldl (renameStep sd bn) (md, rens)).2 =
        rens ++ l.map (fun ie => (ie.2.path, newImageName bn ie.1 (extOf ie.2))) := by
  intro l
  induction l with
  | nil => intro md rens; simp
  | cons ie l ih =>
    intro md rens
    rw [List.foldl_cons, List.map_cons]
    rw [ih]
    simp [renameStep]

/-- `process_images` on a run that discovered at least one image: the
markdown goes through path substitution in discovery order, then the three
rewrite passes; the rename trace pairs the k-th discovered path (1-based)
with its new name. -/
theorem process_images_spec (md sd : List Char) (entries : List FSEntry)
    (bn : List Char) (h : discoverImages entries ≠ []) :
    process_images md sd entries bn =
      (adjacencyFix (imgRewrite (mdRewrite
          (((discoverImages entries).enumFrom 1).foldl (substOne sd bn) md))),
       (discoverImages entries).length,
       ((discoverImages entries).enumFrom 1).map
         (fun ie => (ie.2.path, newImageName bn ie.1 (extOf ie.2)))) := by
  unfold process_images
  rw [if_neg (by
    intro hc
    exact h (List.isEmpty_iff.mp hc))]
  show (adjacencyFix (imgRewrite (mdRewrite
      (List.foldl (renameStep sd bn) (md, []) (List.enumFrom 1 (discoverImages entries))).1)),
      (discoverImages entries).length,
      (List.foldl (renameStep sd bn) (md, []) (List.enumFrom 1 (discoverImages entries))).2) = _
  rw [foldl_renameStep_fst, foldl_renameStep_snd]
  rw [List.nil_append]

/-- `process_images` on a run that discovered no images returns the
markdown unchanged. -/
theorem process_images_empty (md sd : List Char) (entries : List FSEntry)
    (bn : List Char) (h : discoverImages entries = []) :
    process_images md sd entries bn = (md, 0, []) := by
  unfold process_images
  rw [if_pos (by rw [h]; rfl)]

theorem digitChar_ne_slash (n : Nat) : Nat.digitChar (n % 10) ≠ '/' := by
  have h : n % 10 < 10 := Nat.mod_lt _ (by omega)
  revert h
  generalize n % 10 = k
  intro h
  interval_cases k <;> decide

theorem slash_not_mem_pad2 (n : Nat) : '/' ∉ pad2 n := by
  intro hc
  simp only [pad2, List.mem_cons, List.not_mem_nil, or_false] at hc
  rcases hc with hc | hc
  · exact digitChar_ne_slash (n / 10) hc.symm
  · exact digitChar_ne_slash n hc.symm

theorem slash_not_mem_pad4 (n : Nat) : '/' ∉ pad4 n := by
  intro hc
  simp only [pad4, List.mem_cons, List.not_mem_nil, or_false] at hc
  rcases hc with hc | hc | hc | hc
  · exact digitChar_ne_slash (n / 1000) hc.symm
  · exact digitChar_ne_slash (n / 100) hc.symm
  · exact digitChar_ne_slash (n / 10) hc.symm
  · exact digitChar_ne_slash n hc.symm

/-! ### Helper lemmas: path components and form-free strings -/

theorem mem_takeWhile {p : Char → Bool} {s : List Char} {c : Char}
    (h : c ∈ s.takeWhile p) : c ∈ s := by
  rw [← List.takeWhile_append_dropWhile p s]
  exact List.mem_append_left _ h

theorem takeWhile_append_stop {p : Char → Bool} {c : Char} (hc : p c = false) :
    ∀ (A B : List Char), List.takeWhile p (A ++ c :: B) = List.takeWhile p A
  | [], B => by
    rw [List.nil_append, List.takeWhile_cons, if_neg (by simp [hc]), List.takeWhile_nil]
  | x :: A, B => by
    rw [List.cons_append, List.takeWhile_cons, List.takeWhile_cons]
    by_cases hx : p x = true
    · rw [if_pos hx, if_pos hx, takeWhile_append_stop hc A B]
    · rw [if_neg hx, if_neg hx]

theorem basename_append (X Y : List Char) : basename (X ++ '/' :: Y) = basename Y := by
  unfold basename
  rw [List.reverse_append, List.reverse_cons, List.append_assoc]
  rw [show (['/'] ++ X.reverse : List Char) = '/' :: X.reverse from rfl]
  rw [takeWhile_append_stop (by decide) Y.reverse X.reverse]

theorem mem_basename {p : List Char} {c : Char} (h : c ∈ basename p) : c ∈ p := by
  unfold basename at h
  rw [List.mem_reverse] at h
  have h2 := mem_takeWhile h
  rw [List.mem_reverse] at h2
  exact h2

theorem mem_pySuffix {nm : List Char} {c : Char} (h : c ∈ pySuffix nm) : c ∈ nm := by
  unfold pySuffix at h
  cases hf : rfindChar? '.' nm with
  | none => rw [hf] at h; simp at h
  | some i =>
    rw [hf] at h
    have h' : c ∈ (if 0 < i ∧ i < nm.length - 1 then List.drop i nm else []) := h
    by_cases hi : 0 < i ∧ i < nm.length - 1
    · rw [if_pos hi] at h'
      exact List.mem_of_mem_drop h'
    · rw [if_neg hi] at h'
      simp at h'

theorem extOf_plain {sd rel : List Char} (hrelc : ∀ c ∈ rel, plainChar c = true) :
    ∀ c ∈ extOf ⟨sd ++ '/' :: rel, true⟩, plainChar c = true := by
  intro c hc
  unfold extOf at hc
  by_cases hz : pySuffix (basename ((⟨sd ++ '/' :: rel, true⟩ : FSEntry).path)) = []
  · rw [if_pos hz] at hc
    fin_cases hc <;> decide
  · rw [if_neg hz] at hc
    have h2 := mem_pySuffix hc
    have h3 : c ∈ basename (sd ++ '/' :: rel) := h2
    rw [basename_append] at h3
    exact hrelc c (mem_basename h3)

theorem newImageName_plain {base sd rel : List Char}
    (hbase : ∀ c ∈ base, plainChar c = true)
    (hrelc : ∀ c ∈ rel, plainChar c = true) :
    ∀ c ∈ newImageName base 1 (extOf ⟨sd ++ '/' :: rel, true⟩), plainChar c = true := by
  intro c hc
  unfold newImageName at hc
  simp only [List.append_assoc, List.mem_append] at hc
  rcases hc with hc | hc | hc | hc
  · exact hbase c hc
  · fin_cases hc <;> decide
  · have hp : pad3 1 = "001".data := by decide
    rw [hp] at hc
    fin_cases hc <;> decide
  · exact extOf_plain hrelc c hc

theorem tryMdMatch_some_decomp {s url rem : List Char}
    (h : tryMdMatch s = some (url, rem)) :
    ∃ alt, s = '!' :: '[' :: (alt ++ ']' :: '(' :: (url ++ ')' :: rem)) := by
  match s with
  | [] => simp [tryMdMatch] at h
  | [c] => simp [tryMdMatch] at h
  | c1 :: c2 :: rest =>
    by_cases hcc : c1 = '!' ∧ c2 = '['
    · obtain ⟨hc1, hc2⟩ := hcc
      subst hc1; subst hc2
      simp only [tryMdMatch] at h
      rw [if_pos (⟨trivial, trivial⟩ : True ∧ True)] at h
      cases hsp : splitAtChar ']' rest with
      | none => rw [hsp] at h; simp at h
      | some p =>
        obtain ⟨alt, rest2⟩ := p
        rw [hsp] at h
        cases rest2 with
        | nil => simp at h
        | cons c3 rest3 =>
          by_cases hc3 : c3 = '('
          · subst hc3
            simp only at h
            have h' : (match splitAtChar ')' rest3 with
                | some (url, rest4) => if url = [] then none else some (url, rest4)
                | none => none : Option (List Char × List Char)) = some (url, rem) := by
              rw [← h]
              rfl
            cases hsp2 : splitAtChar ')' rest3 with
            | none => rw [hsp2] at h'; simp at h'
            | some q =>
              obtain ⟨url2, rest4⟩ := q
              rw [hsp2] at h'
              have h'' : (if url2 = [] then none else some (url2, rest4) :
                  Option (List Char × List Char)) = some (url, rem) := h'
              by_cases hz : url2 = []
              · rw [if_pos hz] at h''; simp at h''
              · rw [if_neg hz] at h''
                simp only [Option.some.injEq, Prod.mk.injEq] at h''
                obtain ⟨h1, h2⟩ := h''
                subst h1; subst h2
                refine ⟨alt, ?_⟩
                have hd1 := (splitAtChar_eq_some hsp).1
                have hd2 := (splitAtChar_eq_some hsp2).1
                rw [hd1, hd2]
          · simp only at h
            rw [if_neg hc3] at h
            simp at h
    · simp only [tryMdMatch] at h
      rw [if_neg hcc] at h
      simp at h

/-- A string containing no '(' contains no Markdown-image form. -/
theorem hasMdForm_false_of_no_paren {s : List Char} (h : ∀ c ∈ s, c ≠ '(') :
    hasMdForm s = false := by
  unfold hasMdForm
  rw [List.any_eq_false]
  intro i _
  intro hc
  cases ho : tryMdMatch (s.drop i) with
  | none => rw [ho] at hc; simp at hc
  | some p =>
    obtain ⟨url, rem⟩ := p
    obtain ⟨alt, hdec⟩ := tryMdMatch_some_decomp ho
    have hmem : '(' ∈ s.drop i := by
      rw [hdec]
      simp
    exact h '(' (List.mem_of_mem_drop hmem) rfl

theorem tryImgMatch_mem_lt {s : List Char} (h : (tryImgMatch s).isSome = true) :
    '<' ∈ s := by
  match s with
  | [] => simp [tryImgMatch] at h
  | [_] => simp [tryImgMatch] at h
  | [_, _] => simp [tryImgMatch] at h
  | [_, _, _] => simp [tryImgMatch] at h
  | [_, _, _, _] => simp [tryImgMatch] at h
  | c1 :: c2 :: c3 :: c4 :: c5 :: rest =>
    by_cases hc : c1 = '<' ∧ c2 = 'i' ∧ c3 = 'm' ∧ c4 = 'g' ∧ isSpaceChar c5 = true
    · rw [hc.1]
      simp
    · simp only [tryImgMatch] at h
      rw [if_neg hc] at h
      simp at h

/-- A string containing no '<' contains no img-tag form. -/
theorem hasImgForm_false_of_no_lt {s : List Char} (h : ∀ c ∈ s, c ≠ '<') :
    hasImgForm s = false := by
  unfold hasImgForm
  rw [List.any_eq_false]
  intro i _
  intro hc
  have hmem := tryImgMatch_mem_lt hc
  exact h '<' (List.mem_of_mem_drop hmem) rfl

/-! ## The claims -/

/-- Claim C1 counterexample: the claim orders the discovered files
"lexicographically by full path", but the program sorts `Path` objects,
which pathlib compares by their component tuples.  On a subtree holding
/t/a-x/c.png and /t/a/b.png the two orders diverge: the full path string
"/t/a-x/c.png" is strictly below "/t/a/b.png" ('-' is code point 45, '/'
is 47), so under the claim it would be the 1st file and be renamed to
n.image-001.png — but pathlib compares ["/","t","a-x","c.png"] against
["/","t","a","b.png"] and puts /t/a/b.png first ("a" is a proper prefix of
"a-x"), so the program gives /t/a/b.png the number 001 and /t/a-x/c.png
the number 002. -/
theorem claim_C1_counterexample :
    lexLe "/t/a-x/c.png".data "/t/a/b.png".data = true ∧
    "/t/a-x/c.png".data ≠ "/t/a/b.png".data ∧
    (process_images "d".data "/t".data
        [⟨"/t/a-x/c.png".data, true⟩, ⟨"/t/a/b.png".data, true⟩]
        "n".data).2.2 =
      [("/t/a/b.png".data, "n.image-001.png".data),
       ("/t/a-x/c.png".data, "n.image-002.png".data)] := by
  refine ⟨by decide, by decide, ?_⟩
  decide

/-- Claim C1, amended: for every run in which discovery finds at least one
image, the discovered list is exactly the set of files in the subtree whose
extension is, case-insensitively, one of the recognized image extensions;
it is ordered by pathlib's path order — lexicographically by the list of
path components, each component compared as a string by code point, which
is NOT always the full-path string order; and the k-th entry of that order
(1-based) is renamed to base_name ++ ".image-" ++ k zero-padded to 3
digits ++ ext, with ext the file's own extension (`extOf`, which falls back
to ".png" only for an extension-less name) — so the assigned numbers are
exactly 1..N, contiguous with no gaps or duplicates. -/
theorem claim_C1_amended (md sd bn : List Char) (entries : List FSEntry)
    (h : discoverImages entries ≠ []) :
    (∀ e, e ∈ discoverImages entries ↔
      e ∈ entries ∧ e.isFile = true ∧
        (pySuffix (basename e.path)).map Char.toLower ∈ IMAGE_EXTENSIONS) ∧
    List.Sorted entryLe (discoverImages entries) ∧
    (process_images md sd entries bn).2.2 =
      ((discoverImages entries).enumFrom 1).map
        (fun ie => (ie.2.path, newImageName bn ie.1 (extOf ie.2))) ∧
    (process_images md sd entries bn).2.1 = (discoverImages entries).length := by
  refine ⟨?_, sorted_discoverImages entries, ?_, ?_⟩
  · intro e
    rw [mem_discoverImages]
    constructor
    · rintro ⟨h1, h2⟩
      unfold isImageFile at h2
      rw [Bool.and_eq_true] at h2
      exact ⟨h1, h2.1, of_decide_eq_true h2.2⟩
    · rintro ⟨h1, h2, h3⟩
      refine ⟨h1, ?_⟩
      unfold isImageFile
      rw [Bool.and_eq_true]
      exact ⟨h2, decide_eq_true h3⟩
  · rw [process_images_spec md sd entries bn h]
  · rw [process_images_spec md sd entries bn h]

theorem claim_C1_amended_witness :
    discoverImages [⟨"/t/x.txt".data, true⟩, ⟨"/t/media/b.PNG".data, true⟩,
        ⟨"/t/a.jpg".data, true⟩, ⟨"/t/media".data, false⟩] ≠ [] ∧
    ((∀ e, e ∈ discoverImages [⟨"/t/x.txt".data, true⟩, ⟨"/t/media/b.PNG".data, true⟩,
        ⟨"/t/a.jpg".data, true⟩, ⟨"/t/media".data, false⟩] ↔
      e ∈ [⟨"/t/x.txt".data, true⟩, ⟨"/t/media/b.PNG".data, true⟩,
        ⟨"/t/a.jpg".data, true⟩, ⟨"/t/media".data, false⟩] ∧ e.isFile = true ∧
        (pySuffix (basename e.path)).map Char.toLower ∈ IMAGE_EXTENSIONS) ∧
    List.Sorted entryLe (discoverImages [⟨"/t/x.txt".data, true⟩, ⟨"/t/media/b.PNG".data, true⟩,
        ⟨"/t/a.jpg".data, true⟩, ⟨"/t/media".data, false⟩]) ∧
    (process_images "doc".data "/t".data [⟨"/t/x.txt".data, true⟩, ⟨"/t/media/b.PNG".data, true⟩,
        ⟨"/t/a.jpg".data, true⟩, ⟨"/t/media".data, false⟩] "note".data).2.2 =
      ((discoverImages [⟨"/t/x.txt".data, true⟩, ⟨"/t/media/b.PNG".data, true⟩,
        ⟨"/t/a.jpg".data, true⟩, ⟨"/t/media".data, false⟩]).enumFrom 1).map
        (fun ie => (ie.2.path, newImageName "note".data ie.1 (extOf ie.2))) ∧
    (process_images "doc".data "/t".data [⟨"/t/x.txt".data, true⟩, ⟨"/t/media/b.PNG".data, true⟩,
        ⟨"/t/a.jpg".data, true⟩, ⟨"/t/media".data, false⟩] "note".data).2.1 =
      (discoverImages [⟨"/t/x.txt".data, true⟩, ⟨"/t/media/b.PNG".data, true⟩,
        ⟨"/t/a.jpg".data, true⟩, ⟨"/t/media".data, false⟩]).length) :=
  ⟨by decide,
   claim_C1_amended "doc".data "/t".data "note".data
     [⟨"/t/x.txt".data, true⟩, ⟨"/t/media/b.PNG".data, true⟩,
      ⟨"/t/a.jpg".data, true⟩, ⟨"/t/media".data, false⟩] (by decide)⟩

/-- Claim C2 counterexample: with zero discovered images the code returns
early, so the embed-syntax rewrite rules are NOT applied to pre-existing
Markdown-image markup: a document holding a single external image reference
comes back byte-identical, although the Markdown rewrite rule would have
changed it. -/
theorem claim_C2_counterexample :
    (process_images "![a](http://x/y.png)".data "/t".data [] "n".data).1 =
      "![a](http://x/y.png)".data ∧
    mdRewrite "![a](http://x/y.png)".data = "![[http://x/y.png]]".data ∧
    "![a](http://x/y.png)".data ≠ "![[http://x/y.png]]".data :=
  ⟨rfl, by decide, by decide⟩

/-- Claim C2 (amended): when image discovery finds zero images,
`process_images` returns the input Markdown byte-identical (and zero
count): the embed-syntax rewrite passes are not applied at all. -/
theorem claim_C2_amended (md sd bn : List Char) (entries : List FSEntry)
    (h : discoverImages entries = []) :
    process_images md sd entries bn = (md, 0, []) :=
  process_images_empty md sd entries bn h

theorem claim_C2_amended_witness :
    discoverImages ([⟨"/t/readme.txt".data, true⟩] : List FSEntry) = [] ∧
    process_images "![a](u)".data "/t".data [⟨"/t/readme.txt".data, true⟩] "n".data =
      ("![a](u)".data, 0, []) :=
  ⟨by decide, claim_C2_amended "![a](u)".data "/t".data "n".data
    [⟨"/t/readme.txt".data, true⟩] (by decide)⟩

/-- Claim C3: in a run with at least one discovered image, the markdown
output is obtained by first folding the per-image path substitutions
(`substOne`, in discovery order) over the document and only then applying
the three rewrite passes; each `substOne` replaces the absolute path first
and the staging-relative path second, by plain `str.replace`; and
`replaceAll` is plain unanchored substring replacement: a string without
occurrences is unchanged, and an occurrence is replaced wherever it stands,
regardless of surrounding text. -/
theorem claim_C3 :
    (∀ (md sd bn : List Char) (entries : List FSEntry),
      discoverImages entries ≠ [] →
      (process_images md sd entries bn).1 =
        adjacencyFix (imgRewrite (mdRewrite
          (((discoverImages entries).enumFrom 1).foldl (substOne sd bn) md)))) ∧
    (∀ (sd bn md : List Char) (ie : Nat × FSEntry),
      substOne sd bn md ie =
        match relativeTo? ie.2.path sd with
        | some rel => replaceAll
            (replaceAll md ie.2.path (newImageName bn ie.1 (extOf ie.2)))
            rel (newImageName bn ie.1 (extOf ie.2))
        | none => replaceAll md ie.2.path (newImageName bn ie.1 (extOf ie.2))) ∧
    (∀ (s pat rep : List Char),
      (∀ i, pat.isPrefixOf (s.drop i) = false) → replaceAll s pat rep = s) ∧
    (∀ (a pat rep b : List Char), pat ≠ [] →
      (∀ i, i < a.length → pat.isPrefixOf ((a ++ pat ++ b).drop i) = false) →
      replaceAll (a ++ pat ++ b) pat rep = a ++ rep ++ replaceAll b pat rep) := by
  refine ⟨?_, ?_, ?_, ?_⟩
  · intro md sd bn entries h
    rw [process_images_spec md sd entries bn h]
  · intro sd bn md ie
    unfold substOne
    cases relativeTo? ie.2.path sd <;> rfl
  · intro s pat rep h
    exact replaceAll_id pat rep s h
  · intro a pat rep b hp h
    exact replaceAll_boundary pat rep b hp a h

theorem claim_C3_witness :
    ((process_images "see /t/m.png here".data "/t".data [⟨"/t/m.png".data, true⟩] "n".data).1 =
      adjacencyFix (imgRewrite (mdRewrite
        (((discoverImages [⟨"/t/m.png".data, true⟩]).enumFrom 1).foldl
          (substOne "/t".data "n".data) "see /t/m.png here".data)))) ∧
    (substOne "/t".data "n".data "x".data (1, ⟨"/t/m.png".data, true⟩) =
      match relativeTo? ("/t/m.png".data) "/t".data with
      | some rel => replaceAll
          (replaceAll "x".data "/t/m.png".data
            (newImageName "n".data 1 (extOf ⟨"/t/m.png".data, true⟩)))
          rel (newImageName "n".data 1 (extOf ⟨"/t/m.png".data, true⟩))
      | none => replaceAll "x".data "/t/m.png".data
          (newImageName "n".data 1 (extOf ⟨"/t/m.png".data, true⟩))) ∧
    (replaceAll "abc".data "zz".data "q".data = "abc".data) ∧
    (replaceAll ("xy ".data ++ "ab".data ++ " tail ab".data) "ab".data "N".data =
      "xy ".data ++ "N".data ++ replaceAll " tail ab".data "ab".data "N".data) :=
  ⟨claim_C3.1 "see /t/m.png here".data "/t".data "n".data [⟨"/t/m.png".data, true⟩] (by decide),
   claim_C3.2.1 "/t".data "n".data "x".data (1, ⟨"/t/m.png".data, true⟩),
   claim_C3.2.2.1 "abc".data "zz".data "q".data
     (no_occurrence_of_containsSub (by decide) (by decide)),
   claim_C3.2.2.2 "xy ".data "ab".data "N".data " tail ab".data (by decide) (by decide)⟩

/-- Claim C6: in the adjacency-spacing pass, a closing `]]` immediately
followed by `[[` or `![[` gets exactly one space inserted between them
(with a caller-side context free of ']'), text without any such adjacency
is left unchanged, and in particular `![[a.png]]![[b.png]]` becomes
`![[a.png]] ![[b.png]]` while `![[a.png]] text ![[b.png]]` is unchanged. -/
theorem claim_C6 :
    (∀ s : List Char, hasAdj s = false → adjacencyFix s = s) ∧
    (∀ a b : List Char, (∀ c ∈ a, c ≠ ']') →
      adjacencyFix (a ++ ']' :: ']' :: '[' :: '[' :: b) =
        a ++ ']' :: ']' :: ' ' :: '[' :: '[' :: adjacencyFix b) ∧
    (∀ a b : List Char, (∀ c ∈ a, c ≠ ']') →
      adjacencyFix (a ++ ']' :: ']' :: '!' :: '[' :: '[' :: b) =
        a ++ ']' :: ']' :: ' ' :: '!' :: '[' :: '[' :: adjacencyFix b) ∧
    adjacencyFix "![[a.png]]![[b.png]]".data = "![[a.png]] ![[b.png]]".data ∧
    adjacencyFix "![[a.png]] text ![[b.png]]".data = "![[a.png]] text ![[b.png]]".data := by
  refine ⟨adjacencyFix_id_of_no_adj, ?_, ?_, by decide, by decide⟩
  · intro a b ha
    rw [adjacencyFix_append_plain _ a ha, adjacencyFix_match_nobang]
  · intro a b ha
    rw [adjacencyFix_append_plain _ a ha, adjacencyFix_match_bang]

theorem claim_C6_witness :
    adjacencyFix "x ![[p]] y".data = "x ![[p]] y".data ∧
    (adjacencyFix ("ab".data ++ ']' :: ']' :: '[' :: '[' :: "cd".data) =
      "ab".data ++ ']' :: ']' :: ' ' :: '[' :: '[' :: adjacencyFix "cd".data) ∧
    (adjacencyFix ("ab".data ++ ']' :: ']' :: '!' :: '[' :: '[' :: "cd".data) =
      "ab".data ++ ']' :: ']' :: ' ' :: '!' :: '[' :: '[' :: adjacencyFix "cd".data) ∧
    adjacencyFix "![[a.png]]![[b.png]]".data = "![[a.png]] ![[b.png]]".data ∧
    adjacencyFix "![[a.png]] text ![[b.png]]".data = "![[a.png]] text ![[b.png]]".data :=
  ⟨claim_C6.1 "x ![[p]] y".data (by decide),
   claim_C6.2.1 "ab".data "cd".data (by decide),
   claim_C6.2.2.1 "ab".data "cd".data (by decide),
   claim_C6.2.2.2.1, claim_C6.2.2.2.2⟩

/-- Claim C5 counterexample: with one discovered and matched image, the
output can still contain a `![...](...)`-form reference whose parenthesized
value is exactly the image's new file name.  In
`x <img src="a](/t/m.png)"> y` the path is substituted inside the src
value, the img-tag rewrite emits `![[a](n.image-001.png)]]`, and that
replacement itself contains the Markdown-image form
`![[a](n.image-001.png)`. -/
theorem claim_C5_counterexample :
    (process_images ("x <img src=\"a](/t/m.png)\"> y".data) "/t".data
        [⟨"/t/m.png".data, true⟩] "n".data).2.1 = 1 ∧
    mdFormWithUrl (newImageName "n".data 1 (extOf ⟨"/t/m.png".data, true⟩))
      ((process_images ("x <img src=\"a](/t/m.png)\"> y".data) "/t".data
        [⟨"/t/m.png".data, true⟩] "n".data).1) = true :=
  ⟨by decide, by decide⟩

/-- Claim C5 (amended): for a run with exactly one discovered image whose
reference appears as a single well-formed Markdown image reference using
the staging-relative path, surrounded by text free of markup-relevant
characters, and with a base name and path in the plain alphabet, the
output is the surrounding text with the reference rewritten to
`![[new name]]`, and it contains no remaining `![...](...)`-form and no
`<img ...>`-form at all.  (When replacement values themselves contain
form fragments, as in the counterexample, remaining forms can appear.) -/
theorem claim_C5_amended (sd rel base alt a b : List Char) (entries : List FSEntry)
    (hdisc : discoverImages entries = [⟨sd ++ '/' :: rel, true⟩])
    (hrelne : rel ≠ [])
    (halt : ']' ∉ alt)
    (ha : ∀ c ∈ a, plainChar c = true)
    (hb : ∀ c ∈ b, plainChar c = true)
    (hbase : ∀ c ∈ base, plainChar c = true)
    (hrelc : ∀ c ∈ rel, plainChar c = true)
    (habs : containsSub (sd ++ '/' :: rel)
      (a ++ '!' :: '[' :: (alt ++ ']' :: '(' :: (rel ++ ')' :: b))) = false)
    (hrelA : ∀ i, i < (a ++ '!' :: '[' :: (alt ++ [']', '('])).length →
      rel.isPrefixOf
        ((a ++ '!' :: '[' :: (alt ++ ']' :: '(' :: (rel ++ ')' :: b))).drop i) = false)
    (hrelB : containsSub rel (')' :: b) = false) :
    (process_images (a ++ '!' :: '[' :: (alt ++ ']' :: '(' :: (rel ++ ')' :: b)))
        sd entries base).1 =
      a ++ '!' :: '[' :: '[' ::
        (newImageName base 1 (extOf ⟨sd ++ '/' :: rel, true⟩) ++ ']' :: ']' :: b) ∧
    hasMdForm ((process_images (a ++ '!' :: '[' :: (alt ++ ']' :: '(' :: (rel ++ ')' :: b)))
        sd entries base).1) = false ∧
    hasImgForm ((process_images (a ++ '!' :: '[' :: (alt ++ ']' :: '(' :: (rel ++ ')' :: b)))
        sd entries base).1) = false := by
  have hplain_n : ∀ c ∈ newImageName base 1 (extOf ⟨sd ++ '/' :: rel, true⟩),
      plainChar c = true := newImageName_plain hbase hrelc
  have habs_ne : (sd ++ '/' :: rel : List Char) ≠ [] := by simp
  have hrelto : relativeTo? (sd ++ '/' :: rel) sd = some rel := by
    unfold relativeTo?
    rw [if_pos (by
      rw [List.isPrefixOf_iff_prefix,
        show sd ++ '/' :: rel = (sd ++ ['/']) ++ rel from by simp]
      exact List.prefix_append _ _)]
    congr 1
    rw [show sd ++ '/' :: rel = (sd ++ ['/']) ++ rel from by simp,
      List.drop_left' (by simp)]
  have hsubst : ((discoverImages entries).enumFrom 1).foldl (substOne sd base)
      (a ++ '!' :: '[' :: (alt ++ ']' :: '(' :: (rel ++ ')' :: b))) =
      a ++ '!' :: '[' :: (alt ++ ']' :: '(' ::
        (newImageName base 1 (extOf ⟨sd ++ '/' :: rel, true⟩) ++ ')' :: b)) := by
    rw [hdisc]
    rw [List.enumFrom_cons, List.foldl_cons]
    rw [show List.enumFrom (1 + 1) ([] : List FSEntry) = [] from rfl, List.foldl_nil]
    show (match relativeTo? (sd ++ '/' :: rel) sd with
      | some r => replaceAll
          (replaceAll (a ++ '!' :: '[' :: (alt ++ ']' :: '(' :: (rel ++ ')' :: b)))
            (sd ++ '/' :: rel)
            (newImageName base 1 (extOf ⟨sd ++ '/' :: rel, true⟩)))
          r (newImageName base 1 (extOf ⟨sd ++ '/' :: rel, true⟩))
      | none => replaceAll (a ++ '!' :: '[' :: (alt ++ ']' :: '(' :: (rel ++ ')' :: b)))
          (sd ++ '/' :: rel)
          (newImageName base 1 (extOf ⟨sd ++ '/' :: rel, true⟩))) = _
    rw [hrelto]
    show replaceAll
        (replaceAll (a ++ '!' :: '[' :: (alt ++ ']' :: '(' :: (rel ++ ')' :: b)))
          (sd ++ '/' :: rel) (newImageName base 1 (extOf ⟨sd ++ '/' :: rel, true⟩)))
        rel (newImageName base 1 (extOf ⟨sd ++ '/' :: rel, true⟩)) = _
    rw [replaceAll_id (sd ++ '/' :: rel)
      (newImageName base 1 (extOf ⟨sd ++ '/' :: rel, true⟩))
      (a ++ '!' :: '[' :: (alt ++ ']' :: '(' :: (rel ++ ')' :: b)))
      (no_occurrence_of_containsSub habs_ne habs)]
    rw [show a ++ '!' :: '[' :: (alt ++ ']' :: '(' :: (rel ++ ')' :: b)) =
        (a ++ '!' :: '[' :: (alt ++ [']', '('])) ++ rel ++ (')' :: b) from by simp]
    rw [replaceAll_boundary rel
      (newImageName base 1 (extOf ⟨sd ++ '/' :: rel, true⟩)) (')' :: b) hrelne
      (a ++ '!' :: '[' :: (alt ++ [']', '('])) (by
        intro i hi
        rw [show (a ++ '!' :: '[' :: (alt ++ [']', '('])) ++ rel ++ (')' :: b) =
            a ++ '!' :: '[' :: (alt ++ ']' :: '(' :: (rel ++ ')' :: b)) from by simp]
        exact hrelA i hi)]
    rw [replaceAll_id rel
      (newImageName base 1 (extOf ⟨sd ++ '/' :: rel, true⟩)) (')' :: b)
      (no_occurrence_of_containsSub hrelne hrelB)]
    simp [List.append_assoc]
  have hne_dd : discoverImages entries ≠ [] := by rw [hdisc]; simp
  have hn_nop : ')' ∉ newImageName base 1 (extOf ⟨sd ++ '/' :: rel, true⟩) :=
    fun hc => absurd (hplain_n ')' hc) (by decide)
  have hn_ne : newImageName base 1 (extOf ⟨sd ++ '/' :: rel, true⟩) ≠ [] := by
    intro hc
    have hdot0 : '.' ∈ ".image-".data := by decide
    have hdot : '.' ∈ newImageName base 1 (extOf ⟨sd ++ '/' :: rel, true⟩) := by
      unfold newImageName
      exact List.mem_append_left _ (List.mem_append_left _ (List.mem_append_right base hdot0))
    rw [hc] at hdot
    simp at hdot
  have ha_bang : ∀ c ∈ a, c ≠ '!' := fun c hc => (plainChar_spec (ha c hc)).1
  have hb_bang : ∀ c ∈ b, c ≠ '!' := fun c hc => (plainChar_spec (hb c hc)).1
  have hlt : ∀ c ∈ a ++ '!' :: '[' :: '[' ::
      (newImageName base 1 (extOf ⟨sd ++ '/' :: rel, true⟩) ++ ']' :: ']' :: b),
      c ≠ '<' := by
    intro c hc
    simp only [List.mem_append, List.mem_cons] at hc
    rcases hc with hc | hc | hc | hc | hc | hc | hc | hc
    · exact (plainChar_spec (ha c hc)).2.1
    · subst hc; decide
    · subst hc; decide
    · subst hc; decide
    · exact (plainChar_spec (hplain_n c hc)).2.1
    · subst hc; decide
    · subst hc; decide
    · exact (plainChar_spec (hb c hc)).2.1
  have hP : ∀ c ∈ a ++ '!' :: '[' :: '[' ::
      newImageName base 1 (extOf ⟨sd ++ '/' :: rel, true⟩), c ≠ ']' := by
    intro c hc
    simp only [List.mem_append, List.mem_cons] at hc
    rcases hc with hc | hc | hc | hc | hc
    · exact (plainChar_spec (ha c hc)).2.2.2.1
    · subst hc; decide
    · subst hc; decide
    · subst hc; decide
    · exact (plainChar_spec (hplain_n c hc)).2.2.2.1
  have hout : (process_images (a ++ '!' :: '[' :: (alt ++ ']' :: '(' :: (rel ++ ')' :: b)))
      sd entries base).1 =
      a ++ '!' :: '[' :: '[' ::
        (newImageName base 1 (extOf ⟨sd ++ '/' :: rel, true⟩) ++ ']' :: ']' :: b) := by
    rw [process_images_spec _ _ _ _ hne_dd, hsubst]
    rw [mdRewrite_boundary alt
      (newImageName base 1 (extOf ⟨sd ++ '/' :: rel, true⟩)) b halt hn_nop hn_ne a ha_bang]
    rw [mdRewrite_id_of_no_bang b hb_bang]
    rw [imgRewrite_id_of_no_lt _ hlt]
    rw [show a ++ '!' :: '[' :: '[' ::
        (newImageName base 1 (extOf ⟨sd ++ '/' :: rel, true⟩) ++ ']' :: ']' :: b) =
        (a ++ '!' :: '[' :: '[' ::
          newImageName base 1 (extOf ⟨sd ++ '/' :: rel, true⟩)) ++ ']' :: ']' :: b
        from by simp]
    rw [adjacencyFix_append_plain _ _ hP, adjacencyFix_dd b hb]
  refine ⟨hout, ?_, ?_⟩
  · rw [hout]
    apply hasMdForm_false_of_no_paren
    intro c hc
    simp only [List.mem_append, List.mem_cons] at hc
    rcases hc with hc | hc | hc | hc | hc | hc | hc | hc
    · exact (plainChar_spec (ha c hc)).2.2.2.2.1
    · subst hc; decide
    · subst hc; decide
    · subst hc; decide
    · exact (plainChar_spec (hplain_n c hc)).2.2.2.2.1
    · subst hc; decide
    · subst hc; decide
    · exact (plainChar_spec (hb c hc)).2.2.2.2.1
  · rw [hout]
    exact hasImgForm_false_of_no_lt hlt

theorem claim_C5_amended_witness :
    ((process_images ("x ".data ++ '!' :: '[' ::
        ("p".data ++ ']' :: '(' :: ("m.png".data ++ ')' :: " y".data)))
        "/t".data [⟨"/t".data ++ '/' :: "m.png".data, true⟩] "nb".data).1 =
      "x ".data ++ '!' :: '[' :: '[' ::
        (newImageName "nb".data 1 (extOf ⟨"/t".data ++ '/' :: "m.png".data, true⟩) ++
          ']' :: ']' :: " y".data)) ∧
    hasMdForm ((process_images ("x ".data ++ '!' :: '[' ::
        ("p".data ++ ']' :: '(' :: ("m.png".data ++ ')' :: " y".data)))
        "/t".data [⟨"/t".data ++ '/' :: "m.png".data, true⟩] "nb".data).1) = false ∧
    hasImgForm ((process_images ("x ".data ++ '!' :: '[' ::
        ("p".data ++ ']' :: '(' :: ("m.png".data ++ ')' :: " y".data)))
        "/t".data [⟨"/t".data ++ '/' :: "m.png".data, true⟩] "nb".data).1) = false :=
  claim_C5_amended "/t".data "m.png".data "nb".data "p".data "x ".data " y".data
    [⟨"/t".data ++ '/' :: "m.png".data, true⟩]
    (by decide) (by decide) (by decide) (by decide) (by decide) (by decide)
    (by decide) (by decide) (by decide) (by decide)

/-- Claim C7 counterexample: the title "!" (truthy in Python, so the
timestamp fallback is not taken) slugifies to the empty string — the
derived base name is not always non-empty. -/
theorem claim_C7_counterexample : slugify "!".data = [] := by decide

/-- Claim C7 (amended): a base name derived from a title contains no path
separator and is a deterministic function of the title, and the timestamp
fallback base name is non-empty and free of path separators; but a title
consisting only of dropped characters slugifies to the empty base name, so
non-emptiness does not hold for every title. -/
theorem claim_C7_amended :
    (∀ t : List Char, '/' ∉ slugify t) ∧
    (∀ t1 t2 : List Char, t1 = t2 → slugify t1 = slugify t2) ∧
    (∀ y mo d h mi s : Nat,
      timestampBaseName y mo d h mi s ≠ [] ∧
        '/' ∉ timestampBaseName y mo d h mi s) := by
  refine ⟨?_, ?_, ?_⟩
  · intro t hc
    have hk := (slugify_chars t '/' hc).1
    exact absurd hk (by decide)
  · intro t1 t2 h
    rw [h]
  · intro y mo d h mi s
    constructor
    · simp [timestampBaseName]
    · intro hc
      simp only [timestampBaseName, List.append_assoc, List.mem_append,
        List.mem_cons, List.not_mem_nil, or_false] at hc
      rcases hc with hc | hc | hc | hc | hc | hc | hc | hc
      · revert hc; decide
      · exact slash_not_mem_pad4 y hc
      · exact slash_not_mem_pad2 mo hc
      · exact slash_not_mem_pad2 d hc
      · exact absurd hc (by decide)
      · exact slash_not_mem_pad2 h hc
      · exact slash_not_mem_pad2 mi hc
      · exact slash_not_mem_pad2 s hc

theorem claim_C7_amended_witness :
    ('/' ∉ slugify "My Notes!".data) ∧
    slugify "a".data = slugify "a".data ∧
    (timestampBaseName 2026 10 12 9 30 5 ≠ [] ∧
      '/' ∉ timestampBaseName 2026 10 12 9 30 5) :=
  ⟨claim_C7_amended.1 "My Notes!".data,
   claim_C7_amended.2.1 "a".data "a".data rfl,
   claim_C7_amended.2.2 2026 10 12 9 30 5⟩

/-- Claim C8: slugification is idempotent: for every title string t,
slugify (slugify t) = slugify t. -/
theorem claim_C8 (t : List Char) : slugify (slugify t) = slugify t :=
  slugify_eq_self (slugify_chars t) (slugify_chain t) (slugify_head t) (slugify_last t)

/-- Claim C10: every file returned by image discovery has a nonempty
extension whose lowercase form lies in the recognized set, and hence the
`.png` default branch of the renaming step is never taken for a discovered
image: `extOf` returns the file's own extension. -/
theorem claim_C10 (entries : List FSEntry) (e : FSEntry)
    (h : e ∈ discoverImages entries) :
    pySuffix (basename e.path) ≠ [] ∧
    (pySuffix (basename e.path)).map Char.toLower ∈ IMAGE_EXTENSIONS ∧
    extOf e = pySuffix (basename e.path) := by
  have h2 := ((mem_discoverImages entries e).mp h).2
  unfold isImageFile at h2
  rw [Bool.and_eq_true] at h2
  have h3 := of_decide_eq_true h2.2
  have hne : pySuffix (basename e.path) ≠ [] := by
    intro hc
    rw [hc] at h3
    exact absurd h3 (by decide)
  refine ⟨hne, h3, ?_⟩
  unfold extOf
  rw [if_neg hne]

/-- Claim C4 counterexample: the rewrite passes are a single left-to-right
scan replacing non-overlapping matches, so a form-shaped substring that
overlaps an earlier (leftmost) match is not itself rewritten.  The document
`![a](b![c](d))` contains the substring `![c](d)`, which is of the form
`![<no ']'>](<nonempty, no ')'>)` with parenthesized value `d`, yet the
output of the Markdown rewrite pass contains no `![[d]]`. -/
theorem claim_C4_counterexample :
    mdRewrite "![a](b![c](d))".data = "![[b![c](d]])".data ∧
    containsSub "![c](d)".data "![a](b![c](d))".data = true ∧
    containsSub "![[d]]".data (mdRewrite "![a](b![c](d))".data) = false :=
  ⟨by decide, by decide, by decide⟩

/-- Claim C4 (amended): the two embed-syntax rewrite rules are applied by a
single left-to-right scan replacing leftmost, non-overlapping matches,
uniformly (no check against the discovered files): every Markdown-image
form reached by the scan (no earlier match starting before it) is rewritten
to `![[value]]` with the parenthesized value preserved verbatim, and every
img tag with a unique `src="value"` attribute reached by the scan is
rewritten to `![[value]]`; a form-substring overlapping an earlier match is
not separately rewritten. -/
theorem claim_C4_amended :
    (∀ a alt url b : List Char, ']' ∉ alt → ')' ∉ url → url ≠ [] →
      (∀ c ∈ a, c ≠ '!') →
      mdRewrite (a ++ '!' :: '[' :: (alt ++ ']' :: '(' :: (url ++ ')' :: b))) =
        a ++ '!' :: '[' :: '[' :: (url ++ ']' :: ']' :: mdRewrite b)) ∧
    (∀ (ws : Char) (a pre url post b : List Char), isSpaceChar ws = true →
      (∀ c ∈ pre, c ≠ '>') → '"' ∉ url → '>' ∉ url → url ≠ [] → '>' ∉ post →
      (∀ i, i ≤ (pre ++ srcAttr ++ (url ++ '"' :: post)).length →
        srcAttr.isPrefixOf ((pre ++ srcAttr ++ (url ++ '"' :: post)).drop i) = true →
        i = pre.length) →
      (∀ c ∈ a, c ≠ '<') →
      imgRewrite (a ++ '<' :: 'i' :: 'm' :: 'g' :: ws ::
          (pre ++ srcAttr ++ (url ++ '"' :: (post ++ '>' :: b)))) =
        a ++ '!' :: '[' :: '[' :: (url ++ ']' :: ']' :: imgRewrite b)) :=
  ⟨fun a alt url b h1 h2 h3 h4 => mdRewrite_boundary alt url b h1 h2 h3 a h4,
   fun ws a pre url post b h1 h2 h3 h4 h5 h6 h7 h8 =>
     imgRewrite_boundary ws pre url post b h1 h2 h3 h4 h5 h6 h7 a h8⟩

theorem claim_C4_amended_witness :
    (mdRewrite ("x ".data ++ '!' :: '[' ::
        ("alt text".data ++ ']' :: '(' :: ("u.png".data ++ ')' :: " y".data))) =
      "x ".data ++ '!' :: '[' :: '[' ::
        ("u.png".data ++ ']' :: ']' :: mdRewrite " y".data)) ∧
    (imgRewrite ("w ".data ++ '<' :: 'i' :: 'm' :: 'g' :: ' ' ::
        (([] : List Char) ++ srcAttr ++ ("i.png".data ++ '"' :: ([] ++ '>' :: " z".data)))) =
      "w ".data ++ '!' :: '[' :: '[' ::
        ("i.png".data ++ ']' :: ']' :: imgRewrite " z".data)) :=
  ⟨claim_C4_amended.1 "x ".data "alt text".data "u.png".data " y".data
     (by decide) (by decide) (by decide) (by decide),
   claim_C4_amended.2 ' ' "w ".data [] "i.png".data [] " z".data
     (by decide) (by decide) (by decide) (by decide) (by decide) (by decide)
     (by decide) (by decide)⟩

theorem claim_C10_witness :
    ((⟨"/t/a.PNG".data, true⟩ : FSEntry) ∈ discoverImages [⟨"/t/a.PNG".data, true⟩]) ∧
    (pySuffix (basename ("/t/a.PNG".data)) ≠ [] ∧
     (pySuffix (basename ("/t/a.PNG".data))).map Char.toLower ∈ IMAGE_EXTENSIONS ∧
     extOf ⟨"/t/a.PNG".data, true⟩ = pySuffix (basename ("/t/a.PNG".data))) :=
  ⟨by decide, claim_C10 [⟨"/t/a.PNG".data, true⟩] ⟨"/t/a.PNG".data, true⟩ (by decide)⟩

end PB2Obsidian
